import Mathlib

/-!
# Verification of the `sh_emulator` in-memory shell

A shallow embedding of `src/sh_emulator.py`: the virtual-filesystem node
model, path resolver, archive ingestion, command handlers and the
line-execution engine, together with theorems settling the specification
claims.

The Python program mutates a graph of `VNode` objects linked by
`parent` back-references and `children` dictionaries.  We model the object
graph as a heap: a list of nodes indexed by allocation order (`NodeId`),
with `children` as association lists keyed by name (Python dictionaries
preserve insertion order; assignment replaces in place, deletion removes
the key).  Host I/O (reading the zip archive, reading the startup script,
printing) is modelled at the interface the spec fixes: the archive is a
catalog of entries, the script is an optional list of lines, and printed
text is returned as explicit stdout/stderr line lists.
-/

set_option maxRecDepth 4000

namespace ShEmu

/-- The ASCII whitespace recognised by Python's `str.strip()` on the inputs
this program sees (`" \t\n\r\v\f"`). -/
def pyIsSpace (c : Char) : Bool :=
  c = ' ' || c = '\t' || c = '\n' || c = '\r' || c = '\x0b' || c = '\x0c'

/-- `line.rstrip("\n")`: drop trailing newline characters. -/
def rstripNL (s : String) : String :=
  String.mk ((s.toList.reverse.dropWhile (fun c => c = '\n')).reverse)

/-- `not line.strip()`: the line is blank / whitespace-only. -/
def pyBlank (s : String) : Bool :=
  s.toList.all pyIsSpace

/-- Helper for `segsOf`: split a character list on `'/'`, discarding empty
pieces.  `cur` accumulates the current segment in reverse. -/
def segsAux : List Char → List Char → List String
  | [], [] => []
  | [], cur => [String.mk cur.reverse]
  | c :: cs, cur =>
    if c = '/' then
      match cur with
      | [] => segsAux cs []
      | _ => String.mk cur.reverse :: segsAux cs []
    else segsAux cs (c :: cur)

/-- `[p for p in path.split("/") if p]`: the non-empty `/`-separated
segments of a path. -/
def segsOf (s : String) : List String :=
  segsAux s.toList []

/-- `"/".join(parts)`. -/
def joinSlash : List String → String
  | [] => ""
  | [x] => x
  | x :: y :: r => x ++ "/" ++ joinSlash (y :: r)

/-- `s.strip("/")`: remove leading and trailing slashes. -/
def pyStripSlash (s : String) : String :=
  String.mk (((s.toList.dropWhile (fun c => c = '/')).reverse.dropWhile
    (fun c => c = '/')).reverse)

/-- `s.rstrip("/")`: remove trailing slashes. -/
def rstripSlash (s : String) : String :=
  String.mk ((s.toList.reverse.dropWhile (fun c => c = '/')).reverse)

/-- `s.startswith("/")`. -/
def startsSlash (s : String) : Bool :=
  match s.toList with
  | '/' :: _ => true
  | _ => false

/-- `s.endswith("/")`. -/
def endsSlash (s : String) : Bool :=
  match s.toList.reverse with
  | '/' :: _ => true
  | _ => false

/-- `s[:-n]`: drop the last `n` characters. -/
def dropRightN (s : String) (n : Nat) : String :=
  String.mk (s.toList.take (s.toList.length - n))

/-- `s.endswith(".b64")`. -/
def endsB64 (s : String) : Bool :=
  match s.toList.reverse with
  | '4' :: '6' :: 'b' :: '.' :: _ => true
  | _ => false

/-- `s.rpartition("/")` restricted to the two components the source uses:
the text before the last `/` and the text after it (`("", s)` when there
is no slash). -/
def rpartitionSlash (s : String) : String × String :=
  let cs := s.toList
  let fn := (cs.reverse.takeWhile (fun c => c ≠ '/')).reverse
  if fn.length = cs.length then ("", s)
  else (String.mk (cs.take (cs.length - fn.length - 1)), String.mk fn)

/-! ## Node model (`VNode`, `File`, `Dir`) -/

/-- Heap index of a node (allocation order). -/
abbrev NodeId := Nat

/-- The variant payload of a node: a `File` holds raw bytes and a binary
flag; a `Dir` holds its children as an insertion-ordered association list
from child name to node id. -/
inductive NodeKind where
  | file (content : List Nat) (is_binary : Bool)
  | dir (children : List (String × NodeId))
deriving DecidableEq

/-- One `VNode`: name, permission bits, optional parent reference, and the
file/directory payload.  Permissions are `Int` because `chmod` stores the
result of Python's `int(_, 8)`, which can be negative. -/
structure Node where
  name : String
  perms : Int
  parent : Option NodeId
  kind : NodeKind
deriving DecidableEq

/-- The process-wide session state: the heap of all allocated nodes, the
current directory, the command history, and the archive metadata
(`VFS_NAME`, `VFS_ZIP`, `STARTUP`). -/
structure Shell where
  heap : List Node
  cwd : NodeId
  history : List String
  vfsName : String
  vfsZip : Option String
  startup : Option String
deriving DecidableEq

/-- `children.get(name)` on an association list. -/
def lookupKey : List (String × NodeId) → String → Option NodeId
  | [], _ => none
  | (a, v) :: r, k => if a = k then some v else lookupKey r k

/-- `children[name] = node`: replace in place if the key exists, else
append (Python dict insertion semantics). -/
def dictSet : List (String × NodeId) → String → NodeId → List (String × NodeId)
  | [], k, v => [(k, v)]
  | (a, w) :: r, k, v => if a = k then (a, v) :: r else (a, w) :: dictSet r k v

/-- `del children[name]`. -/
def dictDel : List (String × NodeId) → String → List (String × NodeId)
  | [], _ => []
  | (a, w) :: r, k => if a = k then dictDel r k else (a, w) :: dictDel r k

/-- The children list of a node (empty for a `File`). -/
def childrenOf (nd : Node) : List (String × NodeId) :=
  match nd.kind with
  | NodeKind.dir cs => cs
  | _ => []

/-- `Dir.get(name)`, returning `none` on a `File` (mirrors
`isinstance(node, Dir) and name in node.children`). -/
def childGet (nd : Node) (k : String) : Option NodeId :=
  match nd.kind with
  | NodeKind.dir cs => lookupKey cs k
  | _ => none

/-- Placeholder for dereferencing an id that was never allocated;
unreachable in states the program constructs. -/
def defaultNode : Node :=
  { name := "", perms := 0, parent := none, kind := NodeKind.dir [] }

/-- Dereference a node id. -/
def nodeOf (sh : Shell) (i : NodeId) : Node :=
  sh.heap.getD i defaultNode

/-- Replace the node stored at `i` by `f` of its old value. -/
def updateNode (sh : Shell) (i : NodeId) (f : Node → Node) : Shell :=
  { sh with heap := sh.heap.set i (f (nodeOf sh i)) }

/-- Insert `(k, v)` into a node's children (no-op on a `File`; in Python
`add` is only ever called on a `Dir`). -/
def insertChildK (kd : NodeKind) (k : String) (v : NodeId) : NodeKind :=
  match kd with
  | NodeKind.dir cs => NodeKind.dir (dictSet cs k v)
  | _ => kd

/-- Remove key `k` from a node's children (no-op on a `File`). -/
def eraseChildK (kd : NodeKind) (k : String) : NodeKind :=
  match kd with
  | NodeKind.dir cs => NodeKind.dir (dictDel cs k)
  | _ => kd

/-- `Dir.add(node)`: `self.children[node.name] = node; node.parent = self`. -/
def addChild (sh : Shell) (parentId childId : NodeId) : Shell :=
  let nm := (nodeOf sh childId).name
  let sh1 := updateNode sh parentId (fun nd => { nd with kind := insertChildK nd.kind nm childId })
  updateNode sh1 childId (fun nd => { nd with parent := some parentId })

/-- The root directory's id.  `ROOT` is created first, so it sits at heap
index 0. -/
def rootId : NodeId := 0

/-- The startup state: `ROOT = Dir(name="")` (perms `0o755`), `CWD = ROOT`,
empty history, `VFS_NAME = "no-vfs"`. -/
def initShell : Shell :=
  { heap := [{ name := "", perms := 493, parent := none, kind := NodeKind.dir [] }]
    cwd := rootId
    history := []
    vfsName := "no-vfs"
    vfsZip := none
    startup := none }

/-! ## Path resolver and `VNode.path()` -/

/-- The `..` step: move to the parent, or stay put when there is none
(`if node.parent is not None: node = node.parent`). -/
def parentStep (sh : Shell) (i : NodeId) : NodeId :=
  match (nodeOf sh i).parent with
  | some p => p
  | none => i

/-- The segment walk of `resolve`: `.` is a no-op, `..` is `parentStep`,
any other segment must be a child name of the current node, else the walk
fails (`ShellError("No such file or directory: ...")`, modelled as
`none`). -/
def resolveAux (sh : Shell) : NodeId → List String → Option NodeId
  | i, [] => some i
  | i, p :: ps =>
    if p = "." then resolveAux sh i ps
    else if p = ".." then resolveAux sh (parentStep sh i) ps
    else
      match childGet (nodeOf sh i) p with
      | some c => resolveAux sh c ps
      | none => none

/-- `resolve(path)`: empty or `"."` is the current directory; a leading
`/` starts the walk at the root, otherwise at the current directory. -/
def resolve (sh : Shell) (path : String) : Option NodeId :=
  if path = "" || path = "." then some sh.cwd
  else if startsSlash path then resolveAux sh rootId (segsOf path)
  else resolveAux sh sh.cwd (segsOf path)

/-- The parent-chain walk of `VNode.path()`, with fuel (the Python loop
`while node and node.parent is not None` is unbounded; on every state the
program builds, a fuel of `heap.length` suffices). -/
def pathAux (sh : Shell) : Nat → NodeId → List String → List String
  | 0, _, acc => acc
  | Nat.succ f, i, acc =>
    match (nodeOf sh i).parent with
    | none => acc
    | some p => pathAux sh f p ((nodeOf sh i).name :: acc)

/-- `VNode.path()`: `"/" + "/".join(root-to-node names)`. -/
def pathOf (sh : Shell) (i : NodeId) : String :=
  "/" ++ joinSlash (pathAux sh (sh.heap.length + 1) i [])

/-- The parent chain starting at `i` reaches a parentless node within
`fuel` steps. -/
def rootedWithin (sh : Shell) : Nat → NodeId → Bool
  | 0, i => (nodeOf sh i).parent.isNone
  | Nat.succ f, i =>
    match (nodeOf sh i).parent with
    | none => true
    | some p => rootedWithin sh f p

/-! ## Listing / formatting -/

/-- One `rwx` triad from the low three bits. -/
def triad (bits : Nat) : String :=
  (if bits &&& 4 ≠ 0 then "r" else "-") ++
  (if bits &&& 2 ≠ 0 then "w" else "-") ++
  (if bits &&& 1 ≠ 0 then "x" else "-")

/-- Python `(mode >> k) & 7` on a possibly negative `int`: arithmetic
shift is floor division, and masking with 7 is `emod 8`. -/
def pyBits (mode : Int) (k : Nat) : Nat :=
  ((Int.fdiv mode ((2 : Int) ^ k)) % 8).toNat

/-- `_fmt_perms(mode, is_dir)`. -/
def fmtPerms (mode : Int) (isDir : Bool) : String :=
  (if isDir then "d" else "-") ++ triad (pyBits mode 6) ++ triad (pyBits mode 3) ++ triad (pyBits mode 0)

/-- `_fmt_long(node)`: the permission string, a kind tag, the name, and
for files the size in bytes. -/
def fmtLong (sh : Shell) (i : NodeId) : String :=
  let nd := nodeOf sh i
  match nd.kind with
  | NodeKind.dir _ => fmtPerms nd.perms true ++ "\t" ++ "dir" ++ "\t" ++ nd.name
  | NodeKind.file content isBin =>
    fmtPerms nd.perms false ++ "\t" ++ (if isBin then "bin" else "txt") ++ "\t" ++
      nd.name ++ "\t" ++ toString content.length ++ "B"

/-- Insert one keyed pair into a key-sorted list (`String` order is the
code-point order Python's `sorted` uses). -/
def insPair (x : String × NodeId) : List (String × NodeId) → List (String × NodeId)
  | [] => [x]
  | y :: ys => if x.1 ≤ y.1 then x :: y :: ys else y :: insPair x ys

/-- `sorted(children.items())`: insertion sort by key (keys are unique, so
stability is irrelevant). -/
def sortPairs (l : List (String × NodeId)) : List (String × NodeId) :=
  l.foldr insPair []

/-! ## Command handlers -/

/-- The result of one command handler: exit code, new state, stdout lines
and stderr lines. -/
structure HRes where
  rc : Nat
  sh : Shell
  out : List String
  err : List String
deriving DecidableEq

/-- `cmd_ls`. -/
def cmd_ls (sh : Shell) (args : List String) : HRes :=
  let path := args.headD ""
  match resolve sh path with
  | none => ⟨1, sh, [], ["ls: No such file or directory: " ++ path]⟩
  | some i =>
    match (nodeOf sh i).kind with
    | NodeKind.dir cs => ⟨0, sh, (sortPairs cs).map (fun kv => fmtLong sh kv.2), []⟩
    | NodeKind.file _ _ => ⟨0, sh, [fmtLong sh i], []⟩

/-- `cmd_cd`. -/
def cmd_cd (sh : Shell) (args : List String) : HRes :=
  match args with
  | [p] =>
    match resolve sh p with
    | none => ⟨1, sh, [], ["cd: No such file or directory: " ++ p]⟩
    | some i =>
      match (nodeOf sh i).kind with
      | NodeKind.dir _ => ⟨0, { sh with cwd := i }, [], []⟩
      | _ => ⟨1, sh, [], ["cd: not a directory"]⟩
  | _ => ⟨1, sh, [], ["cd: expected exactly one argument"]⟩

/-- `cmd_pwd`. -/
def cmd_pwd (sh : Shell) (args : List String) : HRes :=
  match args with
  | [] => ⟨0, sh, [pathOf sh sh.cwd], []⟩
  | _ => ⟨1, sh, [], ["pwd: no arguments expected"]⟩

/-- `cmd_history`: every recorded line, 1-indexed. -/
def cmd_history (sh : Shell) (args : List String) : HRes :=
  match args with
  | [] =>
    ⟨0, sh,
      ((List.range sh.history.length).zip sh.history).map
        (fun p => toString (p.1 + 1) ++ "  " ++ p.2), []⟩
  | _ => ⟨1, sh, [], ["history: no arguments expected"]⟩

/-- `_print_tree`, with fuel for the recursion depth (sufficient on every
tree the program builds). -/
def printTree (sh : Shell) : Nat → NodeId → String → List String
  | 0, _, _ => []
  | Nat.succ f, i, pfx =>
    match (nodeOf sh i).kind with
    | NodeKind.file _ _ => []
    | NodeKind.dir cs =>
      let items := sortPairs cs
      let k := items.length
      ((items.zip (List.range k)).map (fun x =>
        let last := x.2 = k - 1
        (pfx ++ (if last then "└── " else "├── ") ++ x.1.1) ::
          printTree sh f x.1.2 (pfx ++ (if last then "    " else "│   ")))).flatten

/-- `cmd_tree`. -/
def cmd_tree (sh : Shell) (args : List String) : HRes :=
  let path := args.headD ""
  match resolve sh path with
  | none => ⟨1, sh, [], ["tree: No such file or directory: " ++ path]⟩
  | some i =>
    match (nodeOf sh i).kind with
    | NodeKind.dir _ => ⟨0, sh, printTree sh (sh.heap.length + 1) i "", []⟩
    | NodeKind.file _ _ => ⟨0, sh, [(nodeOf sh i).name], []⟩

/-- Octal digits and underscores after the optional sign/prefix of
`int(s, 8)`: underscores must sit between digits. -/
def octDigitsAux : List Char → Nat → Bool → Option Nat
  | [], acc, true => some acc
  | [], _, false => none
  | c :: cs, acc, prev =>
    if '0' ≤ c && c ≤ '7' then octDigitsAux cs (acc * 8 + (c.toNat - 48)) true
    else if c = '_' then (if prev then octDigitsAux cs acc false else none)
    else none

/-- Python `int(s, 8)`: optional surrounding whitespace, optional sign,
optional `0o`/`0O` prefix, octal digits with single underscores between
digits. -/
def parseOctal (s : String) : Option Int :=
  let cs := (s.toList.dropWhile pyIsSpace).reverse.dropWhile pyIsSpace |>.reverse
  let (neg, cs1) :=
    match cs with
    | '+' :: r => (false, r)
    | '-' :: r => (true, r)
    | r => (false, r)
  let cs2 :=
    match cs1 with
    | '0' :: 'o' :: r => r
    | '0' :: 'O' :: r => r
    | r => r
  match octDigitsAux cs2 0 false with
  | none => none
  | some v => some (if neg then -(v : Int) else (v : Int))

/-- `cmd_chmod`. -/
def cmd_chmod (sh : Shell) (args : List String) : HRes :=
  match args with
  | [modeStr, path] =>
    match parseOctal modeStr with
    | none => ⟨1, sh, [], ["chmod: invalid mode (use octal like 755)"]⟩
    | some mode =>
      match resolve sh path with
      | none => ⟨1, sh, [], ["chmod: No such file or directory: " ++ path]⟩
      | some i => ⟨0, updateNode sh i (fun nd => { nd with perms := mode }), [], []⟩
  | _ => ⟨1, sh, [], ["chmod: usage: chmod OCTAL path"]⟩

/-- The destination-directory walk of `cmd_mv`: every component must
already exist and be a directory.  The not-found message names the whole
directory part, as the source does. -/
def mvWalk (sh : Shell) (allDirParts : List String) : NodeId → List String → Except String NodeId
  | d, [] => Except.ok d
  | d, p :: ps =>
    match childGet (nodeOf sh d) p with
    | none => Except.error ("mv: destination path not found: " ++ joinSlash allDirParts)
    | some c =>
      match (nodeOf sh c).kind with
      | NodeKind.dir _ => mvWalk sh allDirParts c ps
      | _ => Except.error "mv: destination component is not a directory"

/-- The mutation phase of `cmd_mv`:
`del src_parent.children[src_node.name]`, then rename `src_node`, then
`new_parent.add(src_node)`. -/
def mvApply (sh : Shell) (srcId srcParent newParent : NodeId) (newNameFinal : String) : Shell :=
  let sh1 := updateNode sh srcParent
    (fun nd => { nd with kind := eraseChildK nd.kind (nodeOf sh srcId).name })
  let sh2 := updateNode sh1 srcId (fun nd => { nd with name := newNameFinal })
  addChild sh2 newParent srcId

/-- `cmd_mv`. -/
def cmd_mv (sh : Shell) (args : List String) : HRes :=
  match args with
  | [src, dst] =>
    match resolve sh src with
    | none => ⟨1, sh, [], ["mv: No such file or directory: " ++ src]⟩
    | some srcId =>
      match (nodeOf sh srcId).parent with
      | none => ⟨1, sh, [], ["mv: cannot move root"]⟩
      | some srcParent =>
        let dst1 := if endsSlash dst then dropRightN dst 1 else dst
        let base := if startsSlash dst1 then rootId else sh.cwd
        let parts := segsOf dst1
        match parts.getLast? with
        | none => ⟨1, sh, [], ["mv: invalid destination"]⟩
        | some newName =>
          let dirParts := parts.dropLast
          match mvWalk sh dirParts base dirParts with
          | Except.error msg => ⟨1, sh, [], [msg]⟩
          | Except.ok destDir =>
            let pr :=
              match childGet (nodeOf sh destDir) newName with
              | some ex =>
                match (nodeOf sh ex).kind with
                | NodeKind.dir _ => (ex, (nodeOf sh srcId).name)
                | _ => (destDir, newName)
              | none => (destDir, newName)
            ⟨0, mvApply sh srcId srcParent pr.1 pr.2, [], []⟩
  | _ => ⟨1, sh, [], ["mv: usage: mv SRC DST"]⟩

/-- `cmd_conf_dump`: the five fixed `key=value` lines. -/
def cmd_conf_dump (sh : Shell) (args : List String) : HRes :=
  match args with
  | [] =>
    ⟨0, sh,
      [ "vfs_zip=" ++ sh.vfsZip.getD ""
      , "startup=" ++ sh.startup.getD ""
      , "vfs_loaded=" ++ (match sh.vfsZip with
          | some s => if s = "" then "no" else "yes"
          | none => "no")
      , "vfs_name=" ++ sh.vfsName
      , "cwd=" ++ pathOf sh sh.cwd ], []⟩
  | _ => ⟨1, sh, [], ["conf-dump: no arguments expected"]⟩

/-! ## Tokenizer (`shlex.split`, POSIX mode, whitespace splitting) -/

/-- The whitespace characters of `shlex` (`" \t\r\n"`). -/
def shlexWS (c : Char) : Bool :=
  c = ' ' || c = '\t' || c = '\r' || c = '\n'

/-- Tokenizer state: between tokens, inside a word, inside a quote, or
just after a backslash (`inDq` records whether the escape was opened
inside a double quote, the only quote whose contents can be escaped). -/
inductive ShState where
  | start
  | word
  | inQuote (q : Char)
  | esc (inDq : Bool)
deriving DecidableEq

/-- One pass of `shlex.split(line)` (POSIX rules, whitespace splitting,
no comment characters): `tok` is the token being accumulated, `quoted`
records whether it contained a quoted section (an empty quoted token is
still emitted), `acc` holds finished tokens in reverse. -/
def shlexAux : List Char → ShState → List Char → Bool → List String → Except String (List String)
  | [], ShState.start, _, _, acc => Except.ok acc.reverse
  | [], ShState.word, tok, quoted, acc =>
    if tok ≠ [] || quoted then Except.ok (String.mk tok :: acc).reverse
    else Except.ok acc.reverse
  | [], ShState.inQuote _, _, _, _ => Except.error "No closing quotation"
  | [], ShState.esc _, _, _, _ => Except.error "No escaped character"
  | c :: cs, ShState.start, tok, quoted, acc =>
    if shlexWS c then shlexAux cs ShState.start tok quoted acc
    else if c = '\\' then shlexAux cs (ShState.esc false) tok quoted acc
    else if c = '\'' || c = '\"' then shlexAux cs (ShState.inQuote c) tok quoted acc
    else shlexAux cs ShState.word (tok ++ [c]) quoted acc
  | c :: cs, ShState.word, tok, quoted, acc =>
    if shlexWS c then
      if tok ≠ [] || quoted then shlexAux cs ShState.start [] false (String.mk tok :: acc)
      else shlexAux cs ShState.start [] false acc
    else if c = '\'' || c = '\"' then shlexAux cs (ShState.inQuote c) tok quoted acc
    else if c = '\\' then shlexAux cs (ShState.esc false) tok quoted acc
    else shlexAux cs ShState.word (tok ++ [c]) quoted acc
  | c :: cs, ShState.inQuote q, tok, _, acc =>
    if c = q then shlexAux cs ShState.word tok true acc
    else if q = '\"' && c = '\\' then shlexAux cs (ShState.esc true) tok true acc
    else shlexAux cs (ShState.inQuote q) (tok ++ [c]) true acc
  | c :: cs, ShState.esc inDq, tok, quoted, acc =>
    if inDq then
      if c ≠ '\\' && c ≠ '\"' then shlexAux cs (ShState.inQuote '\"') (tok ++ ['\\', c]) quoted acc
      else shlexAux cs (ShState.inQuote '\"') (tok ++ [c]) quoted acc
    else shlexAux cs ShState.word (tok ++ [c]) quoted acc

/-- `shlex.split(line)`: the token list, or the `ValueError` message. -/
def shlexSplit (s : String) : Except String (List String) :=
  shlexAux s.toList ShState.start [] false []

/-! ## Command engine (`run_line`) and session driver -/

/-- The session prompt `[archive-name] cwd$ `. -/
def promptOf (sh : Shell) : String :=
  "[" ++ sh.vfsName ++ "] " ++ pathOf sh sh.cwd ++ "$ "

/-- The `COMMANDS` table.  `"exit"` maps to `None` in the source and is
intercepted before lookup, so it has no handler here either. -/
def findHandler (c : String) : Option (Shell → List String → HRes) :=
  if c = "ls" then some cmd_ls
  else if c = "cd" then some cmd_cd
  else if c = "pwd" then some cmd_pwd
  else if c = "history" then some cmd_history
  else if c = "tree" then some cmd_tree
  else if c = "chmod" then some cmd_chmod
  else if c = "mv" then some cmd_mv
  else if c = "conf-dump" then some cmd_conf_dump
  else none

/-- The result of `run_line`: the `(should_exit, exit_code)` pair of the
source plus the threaded state and the printed stdout/stderr lines. -/
structure RunRes where
  shouldExit : Bool
  rc : Nat
  sh : Shell
  out : List String
  err : List String
deriving DecidableEq

/-- `run_line(line, echo)`: strip trailing newlines; a blank line is
`(False, 0)` with no history entry; a tokenization failure is `(False, 1)`
with no history entry; otherwise the line is recorded, `exit` returns
`(True, 0)`, an unknown command returns `(False, 127)`, and a known
command is echoed (when requested) and dispatched.  (The `cmd, *args`
destructuring cannot see an empty token list for a non-blank line.) -/
def run_line (sh : Shell) (line : String) (echo : Bool) : RunRes :=
  let line := rstripNL line
  if pyBlank line then ⟨false, 0, sh, [], []⟩
  else
    match shlexSplit line with
    | Except.error e => ⟨false, 1, sh, [], ["parse error: " ++ e]⟩
    | Except.ok parts =>
      let sh := { sh with history := sh.history ++ [line] }
      match parts with
      | [] => ⟨false, 0, sh, [], []⟩
      | cmd :: args =>
        if cmd = "exit" then ⟨true, 0, sh, [], []⟩
        else
          match findHandler cmd with
          | none => ⟨false, 127, sh, [], ["unknown command: " ++ cmd]⟩
          | some h =>
            let echoOut := if echo then [promptOf sh ++ line] else []
            let r := h sh args
            ⟨false, r.rc, r.sh, echoOut ++ r.out, r.err⟩

/-- The script-runner loop of `run_startup`: run each line with
`echo=True`; a non-zero exit code halts with a diagnostic and that code;
`should_exit` returns 0; end of script returns 0. -/
def runLines (sh : Shell) : List String → Nat × Shell × List String × List String
  | [] => (0, sh, [], [])
  | l :: ls =>
    let r := run_line sh l true
    if r.rc ≠ 0 then
      (r.rc, r.sh, r.out, r.err ++ ["Startup halted due to error (rc=" ++ toString r.rc ++ ")."])
    else if r.shouldExit then (0, r.sh, r.out, r.err)
    else
      let t := runLines r.sh ls
      (t.1, t.2.1, r.out ++ t.2.2.1, r.err ++ t.2.2.2)

/-- `run_startup(script_path)`.  Reading the script from the host
filesystem is outside the core; it is modelled as an optional list of
lines: `none` is a missing file (exit code 2 before any line runs). -/
def run_startup (scriptPath : String) (script : Option (List String)) (sh : Shell) :
    Nat × Shell × List String × List String :=
  match script with
  | none => (2, sh, [], ["Startup error: file not found: " ++ scriptPath])
  | some lines => runLines sh lines

/-! ## Archive ingestion (`load_vfs`) -/

/-- The value of one base64 alphabet byte, `none` for a non-alphabet
byte (skipped by the non-strict decoder). -/
def b64val (c : Nat) : Option Nat :=
  if 65 ≤ c ∧ c ≤ 90 then some (c - 65)
  else if 97 ≤ c ∧ c ≤ 122 then some (c - 97 + 26)
  else if 48 ≤ c ∧ c ≤ 57 then some (c - 48 + 52)
  else if c = 43 then some 62
  else if c = 47 then some 63
  else none

/-- `base64.b64decode` (CPython's non-strict `binascii.a2b_base64`):
non-alphabet bytes are skipped; a `=` with at least two data characters
in the current quad counts as padding and, once the quad is complete,
terminates the decode; at end of input a quad position of 1 is the
"1 more than a multiple of 4" error and 2 or 3 is "Incorrect padding".
Bytes are emitted incrementally as each data character arrives. -/
def b64decodeAux : List Nat → Nat → Nat → Nat → List Nat → Option (List Nat)
  | [], quadPos, _, _, acc => if quadPos = 0 then some acc.reverse else none
  | c :: rest, quadPos, leftchar, pads, acc =>
    if c = 61 then
      if 2 ≤ quadPos then
        if 4 ≤ quadPos + (pads + 1) then some acc.reverse
        else b64decodeAux rest quadPos leftchar (pads + 1) acc
      else b64decodeAux rest quadPos leftchar pads acc
    else
      match b64val c with
      | none => b64decodeAux rest quadPos leftchar pads acc
      | some v =>
        match quadPos with
        | 0 => b64decodeAux rest 1 v 0 acc
        | 1 => b64decodeAux rest 2 (v % 16) 0 ((leftchar * 4 + v / 16) :: acc)
        | 2 => b64decodeAux rest 3 (v % 4) 0 ((leftchar * 16 + v / 4) :: acc)
        | _ => b64decodeAux rest 0 0 0 ((leftchar * 64 + v) :: acc)

/-- `base64.b64decode(data)`, `none` on a decode error. -/
def b64decode (data : List Nat) : Option (List Nat) :=
  b64decodeAux data 0 0 0 []

/-- The walk of `_ensure_dir`: follow or create each directory segment;
an existing `File` at a segment is the fatal
"path component is file" load error (`none`). -/
def ensureDirAux (sh : Shell) (i : NodeId) : List String → Option (Shell × NodeId)
  | [] => some (sh, i)
  | p :: ps =>
    match childGet (nodeOf sh i) p with
    | none =>
      ensureDirAux
        (addChild
          { sh with heap := sh.heap ++
              [{ name := p, perms := 493, parent := none, kind := NodeKind.dir [] }] }
          i sh.heap.length)
        sh.heap.length ps
    | some nxt =>
      match (nodeOf sh nxt).kind with
      | NodeKind.dir _ => ensureDirAux sh nxt ps
      | _ => none

/-- `_ensure_dir(path)`: strip slashes, split, and walk from the root. -/
def ensure_dir (sh : Shell) (path : String) : Option (Shell × NodeId) :=
  ensureDirAux sh rootId (segsOf path)

/-- `_write_file(path, data, is_binary)`: split the stripped path at its
last slash, ensure the directory part (the root when empty), and add a
fresh `File` (perms `0o644`). -/
def write_file (sh : Shell) (path : String) (data : List Nat) (isBin : Bool) : Option Shell :=
  let stripped := pyStripSlash path
  let dirname := (rpartitionSlash stripped).1
  let fname := (rpartitionSlash stripped).2
  let dres := if dirname ≠ "" then ensure_dir sh dirname else some (sh, rootId)
  match dres with
  | none => none
  | some (sh1, dirId) =>
    some (addChild
      { sh1 with heap := sh1.heap ++
          [{ name := fname, perms := 420, parent := none, kind := NodeKind.file data isBin }] }
      dirId sh1.heap.length)

/-- One catalog entry of the source archive: the entry path, its
is-directory flag, and the payload bytes. -/
structure ZEntry where
  filename : String
  isDir : Bool
  data : List Nat
deriving DecidableEq

/-- Ingest one catalog entry: directories are ensured; a `.b64` file has
its payload base64-decoded (failure is the fatal load error `none`) and
is stored binary with the suffix stripped; any other file is stored
raw. -/
def loadEntry (sh : Shell) (e : ZEntry) : Option Shell :=
  if e.isDir then (ensure_dir sh (rstripSlash e.filename)).map Prod.fst
  else if endsB64 e.filename then
    match b64decode e.data with
    | none => none
    | some decoded => write_file sh (dropRightN e.filename 4) decoded true
  else write_file sh e.filename e.data false

/-- `load_vfs`: ingest the catalog entries in order (reading and checking
the zip container is host I/O outside the core; its entry list is the
input here). -/
def load_vfs (entries : List ZEntry) (sh : Shell) : Option Shell :=
  entries.foldlM loadEntry sh

/-! ## State predicates

The Python program keeps `children` maps and `parent` back-references in
sync; these decidable predicates state that consistency for a heap, so
theorems can hypothesise it where a claim implicitly assumes a tree the
program actually built. -/

/-- Every child edge is consistent: the stored id is allocated, the child
node carries the key as its name, and its back-reference points to the
directory holding the edge. -/
def wfChildren (sh : Shell) : Bool :=
  (List.range sh.heap.length).all fun i =>
    (childrenOf (nodeOf sh i)).all fun kv =>
      decide (kv.2 < sh.heap.length) && ((nodeOf sh kv.2).name == kv.1) &&
        ((nodeOf sh kv.2).parent == some i)

/-- Every parent back-reference is consistent: the parent id is
allocated, the node's name is non-empty, and the parent's children map
holds the node under that name. -/
def wfParent (sh : Shell) : Bool :=
  (List.range sh.heap.length).all fun i =>
    match (nodeOf sh i).parent with
    | none => true
    | some pp =>
      decide (pp < sh.heap.length) && ((nodeOf sh i).name != "") &&
        (childGet (nodeOf sh pp) ((nodeOf sh i).name) == some i)

/-- Every allocated node reaches a parentless node within `heap.length`
parent steps (the tree is acyclic and rooted). -/
def wfRooted (sh : Shell) : Bool :=
  (List.range sh.heap.length).all fun i => rootedWithin sh sh.heap.length i

/-- Every child id stored anywhere in `l` is below `n`. -/
def closedUpTo (n : Nat) (l : List Node) : Bool :=
  l.all fun nd => (childrenOf nd).all fun kv => decide (kv.2 < n)

/-- Every child id stored in the heap is allocated. -/
def heapClosed (sh : Shell) : Bool :=
  closedUpTo sh.heap.length sh.heap

/-- The walk hypothesis of claim C2: every segment is the name of an
existing child at the corresponding step. -/
def walkOk (sh : Shell) : NodeId → List String → Bool
  | _, [] => true
  | i, p :: ps =>
    match childGet (nodeOf sh i) p with
    | some c => walkOk sh c ps
    | none => false

/-- A plain legal child name: non-empty and slash-free. -/
def legalKey (s : String) : Bool :=
  !s.toList.isEmpty && s.toList.all fun c => c != '/'

/-- Name legality of one node: every children key is legal, and a node
that has a parent has a legal name (only the parentless root may carry
the empty name). -/
def nodePredL (nd : Node) : Bool :=
  ((childrenOf nd).all fun kv => legalKey kv.1) && (nd.parent.isNone || legalKey nd.name)

/-- Name legality over a whole heap. -/
def LegalNames (sh : Shell) : Bool :=
  sh.heap.all nodePredL

/-- Modelled from the spec's words (§8, first testable property): the
canonical absolute form of a path — duplicate slashes collapsed, any
trailing slash removed, and a relative path prefixed by the current
directory's absolute path.  This is the spec side of claim C2, to be
compared with what `resolve` + `path()` compute. -/
def canonicalForm (sh : Shell) (p : String) : String :=
  if startsSlash p then "/" ++ joinSlash (segsOf p)
  else
    match segsOf p with
    | [] => pathOf sh sh.cwd
    | segs => (if pathOf sh sh.cwd = "/" then "" else pathOf sh sh.cwd) ++ "/" ++ joinSlash segs

/-- The effect claim C1 ascribes to a successful `mv`: in the final
state, the moved node sits in `children` of `parent2` under `nm`, carries
`nm` as its name and `parent2` as its parent, and — unless the detach and
attach point coincide — its old name is gone from its old parent's
children. -/
def MvMoved (sh2 : Shell) (srcId parent2 : NodeId) (nm : String)
    (srcParent : NodeId) (origName : String) : Prop :=
  childGet (nodeOf sh2 parent2) nm = some srcId ∧
  (nodeOf sh2 srcId).name = nm ∧
  (nodeOf sh2 srcId).parent = some parent2 ∧
  ((srcParent ≠ parent2 ∨ origName ≠ nm) →
    childGet (nodeOf sh2 srcParent) origName = none)

/-! ## Concrete states used by witnesses -/

/-- A small well-formed state: `/a/x` is a two-byte file, `/b` an empty
directory. -/
def mvDemo : Shell :=
  { heap :=
      [ { name := "", perms := 493, parent := none, kind := NodeKind.dir [("a", 1), ("b", 3)] }
      , { name := "a", perms := 493, parent := some 0, kind := NodeKind.dir [("x", 2)] }
      , { name := "x", perms := 420, parent := some 1, kind := NodeKind.file [104, 105] false }
      , { name := "b", perms := 493, parent := some 0, kind := NodeKind.dir [] } ]
    cwd := 0
    history := []
    vfsName := "no-vfs"
    vfsZip := none
    startup := none }

/-- A state holding a single empty file `/f`. -/
def chmodDemo : Shell :=
  { heap :=
      [ { name := "", perms := 493, parent := none, kind := NodeKind.dir [("f", 1)] }
      , { name := "f", perms := 420, parent := some 0, kind := NodeKind.file [] false } ]
    cwd := 0
    history := []
    vfsName := "no-vfs"
    vfsZip := none
    startup := none }

end ShEmu

namespace ShEmu

/-! ## Theorems -/

/-- C8: `resolve` never fails on a `.` or `..` segment: `.` leaves the
walk node unchanged; `..` moves to the parent, or stays put at a
parentless (root) node; `resolve("..")` with the current directory at the
root returns the root without error; and a walk made only of `.` and `..`
segments always succeeds, so the no-such-file branch is reachable only
for ordinary named segments. -/
theorem resolve_dot_dotdot_total :
    (∀ (sh : Shell) (i : NodeId) (ps : List String),
        resolveAux sh i ("." :: ps) = resolveAux sh i ps) ∧
    (∀ (sh : Shell) (i : NodeId) (ps : List String),
        resolveAux sh i (".." :: ps) = resolveAux sh (parentStep sh i) ps) ∧
    (∀ sh : Shell, (nodeOf sh sh.cwd).parent = none → resolve sh ".." = some sh.cwd) ∧
    (∀ (sh : Shell) (i : NodeId) (ps : List String),
        (∀ s ∈ ps, s = "." ∨ s = "..") → ∃ n, resolveAux sh i ps = some n) := by
  refine ⟨fun sh i ps => by simp [resolveAux], fun sh i ps => by simp [resolveAux], ?_, ?_⟩
  · intro sh h
    have hseg : segsOf ".." = [".."] := rfl
    have habs : startsSlash ".." = false := rfl
    simp [resolve, hseg, resolveAux, parentStep, h, habs]
  · intro sh i ps h
    induction ps generalizing i with
    | nil => exact ⟨i, rfl⟩
    | cons s ps ih =>
      rcases h s (by simp) with hs | hs <;> subst hs
      · simpa [resolveAux] using ih i (fun t ht => h t (by simp [ht]))
      · simpa [resolveAux] using ih (parentStep sh i) (fun t ht => h t (by simp [ht]))

/-- Witness for C8 at a concrete state: the current directory of the
startup state is the parentless root, and `resolve("..")` there returns
it. -/
theorem resolve_dot_dotdot_total_witness :
    (nodeOf initShell initShell.cwd).parent = none ∧
      resolve initShell ".." = some initShell.cwd :=
  ⟨by decide, resolve_dot_dotdot_total.2.2.1 initShell (by decide)⟩

/-- C9: `cmd_mv` is atomic on error — whenever it returns a non-zero exit
code (wrong arity, unresolvable or root source, empty destination,
missing or non-directory destination component), the session state is
returned exactly as it was: every directory's children, every name,
parent, permission and content included. -/
theorem mv_error_atomic (sh : Shell) (args : List String)
    (h : (cmd_mv sh args).rc ≠ 0) : (cmd_mv sh args).sh = sh := by
  rcases args with _ | ⟨src, _ | ⟨dst, _ | ⟨a, rest⟩⟩⟩
  · rfl
  · rfl
  · cases hres : resolve sh src with
    | none => simp [cmd_mv, hres]
    | some srcId =>
      cases hpar : (nodeOf sh srcId).parent with
      | none => simp [cmd_mv, hres, hpar]
      | some sp =>
        cases hlast : (segsOf (if endsSlash dst then dropRightN dst 1 else dst)).getLast? with
        | none => simp [cmd_mv, hres, hpar, hlast]
        | some newName =>
          cases hwalk : mvWalk sh
              (segsOf (if endsSlash dst then dropRightN dst 1 else dst)).dropLast
              (if startsSlash (if endsSlash dst then dropRightN dst 1 else dst) then rootId else sh.cwd)
              (segsOf (if endsSlash dst then dropRightN dst 1 else dst)).dropLast with
          | error msg => simp [cmd_mv, hres, hpar, hlast, hwalk]
          | ok destDir =>
            exfalso
            apply h
            simp [cmd_mv, hres, hpar, hlast, hwalk]
  · rfl

/-- Witness for C9: `mv` with no arguments fails and leaves the demo
state untouched. -/
theorem mv_error_atomic_witness :
    (cmd_mv mvDemo []).rc ≠ 0 ∧ (cmd_mv mvDemo []).sh = mvDemo :=
  ⟨by decide, mv_error_atomic mvDemo [] (by decide)⟩

/-! ### History preservation by the command handlers -/

theorem updateNode_history (sh : Shell) (i : NodeId) (f : Node → Node) :
    (updateNode sh i f).history = sh.history := rfl

theorem addChild_history (sh : Shell) (p c : NodeId) :
    (addChild sh p c).history = sh.history := rfl

theorem mvApply_history (sh : Shell) (a b c : NodeId) (nm : String) :
    (mvApply sh a b c nm).history = sh.history := rfl

theorem cmd_ls_state (sh : Shell) (args : List String) : (cmd_ls sh args).sh = sh := by
  simp only [cmd_ls]
  split
  · rfl
  · split <;> rfl

theorem cmd_cd_history (sh : Shell) (args : List String) :
    (cmd_cd sh args).sh.history = sh.history := by
  unfold cmd_cd
  split
  · split
    · rfl
    · split <;> rfl
  · rfl

theorem cmd_pwd_state (sh : Shell) (args : List String) : (cmd_pwd sh args).sh = sh := by
  unfold cmd_pwd
  split <;> rfl

theorem cmd_history_state (sh : Shell) (args : List String) :
    (cmd_history sh args).sh = sh := by
  unfold cmd_history
  split <;> rfl

theorem cmd_tree_state (sh : Shell) (args : List String) : (cmd_tree sh args).sh = sh := by
  simp only [cmd_tree]
  split
  · rfl
  · split <;> rfl

theorem cmd_chmod_history (sh : Shell) (args : List String) :
    (cmd_chmod sh args).sh.history = sh.history := by
  unfold cmd_chmod
  split
  · split
    · rfl
    · split <;> rfl
  · rfl

theorem cmd_mv_history (sh : Shell) (args : List String) :
    (cmd_mv sh args).sh.history = sh.history := by
  simp only [cmd_mv]
  repeat' split
  all_goals rfl

theorem cmd_conf_dump_state (sh : Shell) (args : List String) :
    (cmd_conf_dump sh args).sh = sh := by
  unfold cmd_conf_dump
  split <;> rfl

/-- Any handler found in the command table leaves the history as it
was. -/
theorem handler_history (c : String) (h : Shell → List String → HRes)
    (hh : findHandler c = some h) (sh : Shell) (args : List String) :
    (h sh args).sh.history = sh.history := by
  unfold findHandler at hh
  split_ifs at hh <;>
    first
      | exact Option.noConfusion hh
      | (injection hh with hh
         subst hh
         first
           | exact congrArg Shell.history (cmd_ls_state sh args)
           | exact cmd_cd_history sh args
           | exact congrArg Shell.history (cmd_pwd_state sh args)
           | exact congrArg Shell.history (cmd_history_state sh args)
           | exact congrArg Shell.history (cmd_tree_state sh args)
           | exact cmd_chmod_history sh args
           | exact cmd_mv_history sh args
           | exact congrArg Shell.history (cmd_conf_dump_state sh args))

/-- C5: `run_line` appends the (newline-stripped) raw line to history
exactly when the line is non-blank and tokenizes: a blank line returns
`(False, 0)` with the state untouched, a tokenization failure returns
`(False, 1)` with the state untouched, and every successfully tokenized
line — unknown commands, `exit`, and failing handlers included — is
appended exactly once at the end of the history. -/
theorem run_line_history (sh : Shell) (line : String) (echo : Bool) :
    (pyBlank (rstripNL line) = true → run_line sh line echo = ⟨false, 0, sh, [], []⟩) ∧
    (pyBlank (rstripNL line) = false →
      ∀ msg, shlexSplit (rstripNL line) = Except.error msg →
        run_line sh line echo = ⟨false, 1, sh, [], ["parse error: " ++ msg]⟩) ∧
    (pyBlank (rstripNL line) = false →
      ∀ ts, shlexSplit (rstripNL line) = Except.ok ts →
        (run_line sh line echo).sh.history = sh.history ++ [rstripNL line]) := by
  refine ⟨fun hb => ?_, fun hb msg hm => ?_, fun hb ts ht => ?_⟩
  · simp [run_line, hb]
  · simp [run_line, hb, hm]
  · unfold run_line
    simp only [hb, ht, Bool.false_eq_true, if_false]
    cases ts with
    | nil => rfl
    | cons cmd args =>
      by_cases hx : cmd = "exit"
      · simp [hx]
      · simp only [hx, if_false]
        cases hh : findHandler cmd with
        | none => rfl
        | some h =>
          simpa using handler_history cmd h hh _ args

/-- Witness for C5: an unknown command is non-blank, tokenizes, and is
recorded in history exactly once. -/
theorem run_line_history_witness :
    pyBlank (rstripNL "frobnicate") = false ∧
      (run_line chmodDemo "frobnicate" false).sh.history =
        chmodDemo.history ++ [rstripNL "frobnicate"] :=
  ⟨by decide,
    (run_line_history chmodDemo "frobnicate" false).2.2 (by decide) ["frobnicate"] rfl⟩

/-- `pathAux` reads only the heap. -/
theorem pathAux_heapEq (sh sh' : Shell) (hh : sh'.heap = sh.heap) :
    ∀ (f : Nat) (i : NodeId) (acc : List String),
      pathAux sh' f i acc = pathAux sh f i acc := by
  intro f
  induction f with
  | zero => intro i acc; rfl
  | succ f ih => intro i acc; simp [pathAux, nodeOf, hh, ih]

/-- `pathOf` reads only the heap. -/
theorem pathOf_heapEq (sh sh' : Shell) (hh : sh'.heap = sh.heap) (i : NodeId) :
    pathOf sh' i = pathOf sh i := by
  simp [pathOf, hh, pathAux_heapEq sh sh' hh]

/-- Counterexample to C7 as stated: in a startup script, a line naming an
unknown command is executed (exit code 127) but nothing is printed to
stdout — in particular no prompt-prefixed echo of the line, though the
claim requires every line to be echoed before execution.  (In the source,
the echo sits after tokenization, the history append, the `exit` check
and the command-table lookup.) -/
theorem run_line_echo_counterexample :
    (run_startup "boot.txt" (some ["frobnicate"]) chmodDemo).1 = 127 ∧
      (run_startup "boot.txt" (some ["frobnicate"]) chmodDemo).2.2.1 = [] := by
  constructor <;> rfl

/-- C7 (amended): with `echo=True`, a line is echoed with the session
prompt, before its handler's output, exactly when it is non-blank,
tokenizes successfully, is not the `exit` line, and names a known
command; blank lines, tokenization failures, `exit`, and unknown commands
produce no echo. -/
theorem run_line_echo_only_known (sh : Shell) (line : String) :
    (pyBlank (rstripNL line) = true → (run_line sh line true).out = []) ∧
    (∀ msg, shlexSplit (rstripNL line) = Except.error msg →
        (run_line sh line true).out = []) ∧
    (pyBlank (rstripNL line) = false →
      ∀ args, shlexSplit (rstripNL line) = Except.ok ("exit" :: args) →
        (run_line sh line true).out = []) ∧
    (pyBlank (rstripNL line) = false →
      ∀ c args, shlexSplit (rstripNL line) = Except.ok (c :: args) → c ≠ "exit" →
        findHandler c = none → (run_line sh line true).out = []) ∧
    (pyBlank (rstripNL line) = false →
      ∀ c args h, shlexSplit (rstripNL line) = Except.ok (c :: args) → c ≠ "exit" →
        findHandler c = some h →
        (run_line sh line true).out =
          (promptOf sh ++ rstripNL line) ::
            (h { sh with history := sh.history ++ [rstripNL line] } args).out) := by
  refine ⟨fun hb => ?_, fun msg hm => ?_, fun hb args ht => ?_,
    fun hb c args ht hx hh => ?_, fun hb c args h ht hx hh => ?_⟩
  · simp [run_line, hb]
  · by_cases hb : pyBlank (rstripNL line) = true <;> simp [run_line, hb, hm]
  · simp [run_line, hb, ht]
  · simp [run_line, hb, ht, hx, hh]
  · simp only [run_line, hb, ht, hx, hh, promptOf, Bool.false_eq_true, if_false,
      if_neg hx, ite_true]
    rw [pathOf_heapEq sh { sh with history := sh.history ++ [rstripNL line] } rfl sh.cwd]
    exact List.singleton_append ..

/-- Witness for C7's amended statement: `pwd` is a known command, so its
script-mode execution is echoed with the prompt ahead of its output. -/
theorem run_line_echo_only_known_witness :
    pyBlank (rstripNL "pwd") = false ∧
      (run_line chmodDemo "pwd" true).out =
        (promptOf chmodDemo ++ rstripNL "pwd") ::
          (cmd_pwd { chmodDemo with history := chmodDemo.history ++ [rstripNL "pwd"] } []).out :=
  ⟨by decide,
    (run_line_echo_only_known chmodDemo "pwd").2.2.2.2 (by decide) "pwd" [] cmd_pwd rfl
      (by decide) rfl⟩

/-- C4: `run_startup` on a missing script file returns 2 with the state
untouched and nothing executed; the line loop halts on the first non-zero
exit code, returning it immediately with the remaining lines never run;
a line signalling exit returns 0 immediately; the end of the script
returns 0; and for the concrete two-line script `cd /nope`, `ls` against
the startup state, the run exits with code 1 and only `cd /nope` was ever
executed (the history records no `ls`). -/
theorem run_startup_halting :
    (∀ (pth : String) (sh : Shell),
        run_startup pth none sh = (2, sh, [], ["Startup error: file not found: " ++ pth])) ∧
    (∀ (sh : Shell) (l : String) (ls : List String),
        (run_line sh l true).rc ≠ 0 →
          runLines sh (l :: ls) =
            ((run_line sh l true).rc, (run_line sh l true).sh, (run_line sh l true).out,
              (run_line sh l true).err ++
                ["Startup halted due to error (rc=" ++ toString (run_line sh l true).rc ++ ")."])) ∧
    (∀ (sh : Shell) (l : String) (ls : List String),
        (run_line sh l true).rc = 0 → (run_line sh l true).shouldExit = true →
          runLines sh (l :: ls) =
            (0, (run_line sh l true).sh, (run_line sh l true).out, (run_line sh l true).err)) ∧
    (∀ sh : Shell, runLines sh [] = (0, sh, [], [])) ∧
    ((run_startup "boot.txt" (some ["cd /nope", "ls"]) initShell).1 = 1 ∧
      (run_startup "boot.txt" (some ["cd /nope", "ls"]) initShell).2.1.history = ["cd /nope"]) := by
  refine ⟨fun pth sh => rfl, fun sh l ls h => ?_, fun sh l ls h1 h2 => ?_,
    fun sh => rfl, by constructor <;> rfl⟩
  · simp only [runLines]
    rw [if_pos h]
  · simp [runLines, h1, h2]

/-- Witness for C4: the failing `cd /nope` halts the loop at once with
its own diagnostic appended. -/
theorem run_startup_halting_witness :
    (run_line initShell "cd /nope" true).rc ≠ 0 ∧
      runLines initShell ["cd /nope", "ls"] =
        ((run_line initShell "cd /nope" true).rc, (run_line initShell "cd /nope" true).sh,
          (run_line initShell "cd /nope" true).out,
          (run_line initShell "cd /nope" true).err ++
            ["Startup halted due to error (rc=" ++
              toString (run_line initShell "cd /nope" true).rc ++ ")."]) :=
  ⟨by decide, run_startup_halting.2.1 initShell "cd /nope" ["ls"] (by decide)⟩

/-! ### Heap-update lemmas -/

theorem listGetD_set_eq {α : Type} (l : List α) (i : Nat) (x d : α) (h : i < l.length) :
    (l.set i x).getD i d = x := by
  induction l generalizing i with
  | nil => simp at h
  | cons a t ih =>
    cases i with
    | zero => rfl
    | succ n => simpa using ih n (by simpa using h)

theorem listGetD_set_ne {α : Type} (l : List α) (i j : Nat) (x d : α) (h : j ≠ i) :
    (l.set i x).getD j d = l.getD j d := by
  induction l generalizing i j with
  | nil => rfl
  | cons a t ih =>
    cases i with
    | zero =>
      cases j with
      | zero => exact absurd rfl h
      | succ m => rfl
    | succ n =>
      cases j with
      | zero => rfl
      | succ m => simpa using ih n m (fun e => h (by rw [e]))

theorem listSet_oob {α : Type} (l : List α) (i : Nat) (x : α) (h : l.length ≤ i) :
    l.set i x = l := by
  induction l generalizing i with
  | nil => rfl
  | cons a t ih =>
    cases i with
    | zero => simp at h
    | succ n => simpa using ih n (by simpa using h)

theorem nodeOf_update_self (sh : Shell) (i : NodeId) (f : Node → Node)
    (h : i < sh.heap.length) : nodeOf (updateNode sh i f) i = f (nodeOf sh i) := by
  unfold nodeOf updateNode
  exact listGetD_set_eq _ _ _ _ h

theorem nodeOf_update_ne (sh : Shell) (i j : NodeId) (f : Node → Node) (h : j ≠ i) :
    nodeOf (updateNode sh i f) j = nodeOf sh j := by
  unfold nodeOf updateNode
  exact listGetD_set_ne _ _ _ _ _ h

theorem nodeOf_update_oob (sh : Shell) (i : NodeId) (f : Node → Node)
    (h : sh.heap.length ≤ i) (j : NodeId) :
    nodeOf (updateNode sh i f) j = nodeOf sh j := by
  unfold nodeOf updateNode
  rw [listSet_oob _ _ _ h]

/-- A `chmod`-style update changes no node's kind. -/
theorem nodeOf_permsUpdate_kind (sh : Shell) (fid : NodeId) (m : Int) (j : NodeId) :
    (nodeOf (updateNode sh fid (fun nd => { nd with perms := m })) j).kind
      = (nodeOf sh j).kind := by
  by_cases hlt : fid < sh.heap.length
  · by_cases hj : j = fid
    · subst hj; rw [nodeOf_update_self sh j _ hlt]
    · rw [nodeOf_update_ne sh fid j _ hj]
  · rw [nodeOf_update_oob sh fid _ (Nat.le_of_not_lt hlt)]

/-- A `chmod`-style update changes no node's parent. -/
theorem nodeOf_permsUpdate_parent (sh : Shell) (fid : NodeId) (m : Int) (j : NodeId) :
    (nodeOf (updateNode sh fid (fun nd => { nd with perms := m })) j).parent
      = (nodeOf sh j).parent := by
  by_cases hlt : fid < sh.heap.length
  · by_cases hj : j = fid
    · subst hj; rw [nodeOf_update_self sh j _ hlt]
    · rw [nodeOf_update_ne sh fid j _ hj]
  · rw [nodeOf_update_oob sh fid _ (Nat.le_of_not_lt hlt)]

/-- A `chmod`-style update changes no node's name. -/
theorem nodeOf_permsUpdate_name (sh : Shell) (fid : NodeId) (m : Int) (j : NodeId) :
    (nodeOf (updateNode sh fid (fun nd => { nd with perms := m })) j).name
      = (nodeOf sh j).name := by
  by_cases hlt : fid < sh.heap.length
  · by_cases hj : j = fid
    · subst hj; rw [nodeOf_update_self sh j _ hlt]
    · rw [nodeOf_update_ne sh fid j _ hj]
  · rw [nodeOf_update_oob sh fid _ (Nat.le_of_not_lt hlt)]

/-- Resolution is unaffected by a permission-only update. -/
theorem resolveAux_permsUpdate (sh : Shell) (fid : NodeId) (m : Int) (segs : List String) :
    ∀ i, resolveAux (updateNode sh fid (fun nd => { nd with perms := m })) i segs
      = resolveAux sh i segs := by
  induction segs with
  | nil => intro i; rfl
  | cons p ps ih =>
    intro i
    have hcg : childGet (nodeOf (updateNode sh fid (fun nd => { nd with perms := m })) i) p
        = childGet (nodeOf sh i) p := by
      unfold childGet
      rw [nodeOf_permsUpdate_kind]
    have hps : parentStep (updateNode sh fid (fun nd => { nd with perms := m })) i
        = parentStep sh i := by
      unfold parentStep
      rw [nodeOf_permsUpdate_parent]
    unfold resolveAux
    rw [hcg, hps]
    by_cases h1 : p = "."
    · simp [h1, ih]
    · by_cases h2 : p = ".."
      · simp [h1, h2, ih]
      · simp only [h1, h2, if_false]
        cases childGet (nodeOf sh i) p <;> simp [ih]

theorem resolve_permsUpdate (sh : Shell) (fid : NodeId) (m : Int) (path : String) :
    resolve (updateNode sh fid (fun nd => { nd with perms := m })) path = resolve sh path := by
  unfold resolve
  split
  · rfl
  · split <;> (rw [resolveAux_permsUpdate]; try rfl)

/-- C10: for a file `/f`, `chmod 700 /f` succeeds with exit code 0, and
`ls /f` then prints exactly one line whose permission field is
`-rwx------` — the kind-flag dash followed by the `rwx------` triads the
claim requires. -/
theorem chmod700_then_ls (sh : Shell) (fid : NodeId) (content : List Nat) (isBin : Bool)
    (hres : resolve sh "/f" = some fid)
    (hfile : (nodeOf sh fid).kind = NodeKind.file content isBin)
    (hlt : fid < sh.heap.length) :
    (cmd_chmod sh ["700", "/f"]).rc = 0 ∧
      (cmd_ls (cmd_chmod sh ["700", "/f"]).sh ["/f"]).rc = 0 ∧
      (cmd_ls (cmd_chmod sh ["700", "/f"]).sh ["/f"]).out =
        ["-rwx------" ++ "\t" ++ (if isBin then "bin" else "txt") ++ "\t" ++
          (nodeOf sh fid).name ++ "\t" ++ toString content.length ++ "B"] := by
  have hoct : parseOctal "700" = some 448 := rfl
  have hchmod : cmd_chmod sh ["700", "/f"] =
      ⟨0, updateNode sh fid (fun nd => { nd with perms := 448 }), [], []⟩ := by
    simp [cmd_chmod, hoct, hres]
  rw [hchmod]
  refine ⟨rfl, ?_⟩
  have hres' : resolve (updateNode sh fid (fun nd => { nd with perms := 448 })) "/f" = some fid := by
    rw [resolve_permsUpdate, hres]
  have hnode : nodeOf (updateNode sh fid (fun nd => { nd with perms := 448 })) fid
      = { nodeOf sh fid with perms := 448 } := nodeOf_update_self sh fid _ hlt
  have hkind : (nodeOf (updateNode sh fid (fun nd => { nd with perms := 448 })) fid).kind
      = NodeKind.file content isBin := by rw [hnode]; exact hfile
  have hargs : (["/f"] : List String).headD "" = "/f" := rfl
  have hperms : (nodeOf (updateNode sh fid (fun nd => { nd with perms := 448 })) fid).perms
      = 448 := by rw [hnode]
  have hname : (nodeOf (updateNode sh fid (fun nd => { nd with perms := 448 })) fid).name
      = (nodeOf sh fid).name := by rw [hnode]
  have hfmt : fmtLong (updateNode sh fid (fun nd => { nd with perms := 448 })) fid =
      fmtPerms 448 false ++ "\t" ++ (if isBin then "bin" else "txt") ++ "\t" ++
        (nodeOf sh fid).name ++ "\t" ++ toString content.length ++ "B" := by
    simp only [fmtLong, hkind, hperms, hname]
  have hperm : fmtPerms 448 false = "-rwx------" := by decide
  constructor
  · simp [cmd_ls, hargs, hres', hkind]
  · simp only [cmd_ls, hargs, hres', hkind, hfmt, hperm]

/-- Witness for C10 at a concrete state holding the empty file `/f`. -/
theorem chmod700_then_ls_witness :
    resolve chmodDemo "/f" = some 1 ∧
      (cmd_ls (cmd_chmod chmodDemo ["700", "/f"]).sh ["/f"]).out =
        ["-rwx------" ++ "\t" ++ (if false then "bin" else "txt") ++ "\t" ++
          (nodeOf chmodDemo 1).name ++ "\t" ++ toString (List.length ([] : List Nat)) ++ "B"] :=
  ⟨by decide,
    (chmod700_then_ls chmodDemo 1 [] false (by decide) (by decide) (by decide)).2.2⟩

/-! ### Dictionary lemmas -/

theorem lookupKey_dictSet_self (l : List (String × NodeId)) (k : String) (v : NodeId) :
    lookupKey (dictSet l k v) k = some v := by
  induction l with
  | nil => simp [dictSet, lookupKey]
  | cons a r ih =>
    obtain ⟨a1, a2⟩ := a
    by_cases h : a1 = k
    · subst h
      simp [dictSet, lookupKey]
    · simp [dictSet, h, lookupKey, ih]

theorem lookupKey_dictSet_ne (l : List (String × NodeId)) (k k' : String) (v : NodeId)
    (h : k' ≠ k) : lookupKey (dictSet l k v) k' = lookupKey l k' := by
  have hk : k ≠ k' := Ne.symm h
  induction l with
  | nil => simp [dictSet, lookupKey, hk]
  | cons a r ih =>
    obtain ⟨a1, a2⟩ := a
    by_cases ha : a1 = k
    · subst ha
      simp [dictSet, lookupKey, hk]
    · by_cases ha' : a1 = k'
      · subst ha'
        simp [dictSet, ha, lookupKey]
      · simp [dictSet, ha, lookupKey, ha', ih]

theorem lookupKey_dictDel_self (l : List (String × NodeId)) (k : String) :
    lookupKey (dictDel l k) k = none := by
  induction l with
  | nil => rfl
  | cons a r ih =>
    obtain ⟨a1, a2⟩ := a
    by_cases h : a1 = k
    · simp [dictDel, h, ih]
    · simp [dictDel, h, lookupKey, ih]

theorem lookupKey_dictDel_ne (l : List (String × NodeId)) (k k' : String) (h : k' ≠ k) :
    lookupKey (dictDel l k) k' = lookupKey l k' := by
  induction l with
  | nil => rfl
  | cons a r ih =>
    obtain ⟨a1, a2⟩ := a
    by_cases ha : a1 = k
    · subst ha
      simp [dictDel, lookupKey, Ne.symm h, ih]
    · by_cases ha' : a1 = k'
      · subst ha'
        simp [dictDel, ha, lookupKey]
      · simp [dictDel, ha, lookupKey, ha', ih]

theorem lookupKey_mem (l : List (String × NodeId)) (k : String) (v : NodeId)
    (h : lookupKey l k = some v) : (k, v) ∈ l := by
  induction l with
  | nil => simp [lookupKey] at h
  | cons a r ih =>
    obtain ⟨a1, a2⟩ := a
    by_cases ha : a1 = k
    · subst ha
      simp [lookupKey] at h
      subst h
      exact List.mem_cons_self _ _
    · simp [lookupKey, ha] at h
      exact List.mem_cons_of_mem _ (ih h)

theorem dictSet_all (l : List (String × NodeId)) (k : String) (v : NodeId)
    (P : String × NodeId → Bool) (hl : l.all P = true) (hkv : P (k, v) = true) :
    (dictSet l k v).all P = true := by
  induction l with
  | nil => simp [dictSet, hkv]
  | cons a r ih =>
    obtain ⟨a1, a2⟩ := a
    simp only [List.all_cons, Bool.and_eq_true] at hl
    by_cases ha : a1 = k
    · subst ha
      simp [dictSet, hkv, hl.2]
    · simp [dictSet, ha, hl.1, ih hl.2]

theorem dictDel_all (l : List (String × NodeId)) (k : String)
    (P : String × NodeId → Bool) (hl : l.all P = true) :
    (dictDel l k).all P = true := by
  induction l with
  | nil => rfl
  | cons a r ih =>
    obtain ⟨a1, a2⟩ := a
    simp only [List.all_cons, Bool.and_eq_true] at hl
    by_cases ha : a1 = k
    · simp [dictDel, ha, ih hl.2]
    · simp [dictDel, ha, hl.1, ih hl.2]

/-! ### Heap-closure lemmas and the ingestion specification -/

theorem updateNode_heap_length (sh : Shell) (i : NodeId) (f : Node → Node) :
    (updateNode sh i f).heap.length = sh.heap.length := by
  simp [updateNode]

theorem addChild_heap_length (sh : Shell) (p c : NodeId) :
    (addChild sh p c).heap.length = sh.heap.length := by
  simp [addChild, updateNode]

theorem nodeOf_addChild_child_ne (sh : Shell) (p c : NodeId) (hpc : p ≠ c)
    (hc : c < sh.heap.length) :
    nodeOf (addChild sh p c) c = { nodeOf sh c with parent := some p } := by
  unfold addChild
  rw [nodeOf_update_self _ _ _ (by rw [updateNode_heap_length]; exact hc)]
  rw [nodeOf_update_ne _ _ _ _ (fun e => hpc e.symm)]

theorem nodeOf_addChild_parent_ne (sh : Shell) (p c : NodeId) (hpc : p ≠ c)
    (hp : p < sh.heap.length) :
    nodeOf (addChild sh p c) p =
      { nodeOf sh p with kind := insertChildK (nodeOf sh p).kind (nodeOf sh c).name c } := by
  unfold addChild
  rw [nodeOf_update_ne _ _ _ _ hpc]
  rw [nodeOf_update_self _ _ _ hp]

theorem nodeOf_addChild_other (sh : Shell) (p c j : NodeId) (hjp : j ≠ p) (hjc : j ≠ c) :
    nodeOf (addChild sh p c) j = nodeOf sh j := by
  unfold addChild
  rw [nodeOf_update_ne _ _ _ _ hjc, nodeOf_update_ne _ _ _ _ hjp]

theorem nodeOf_append_lt (sh : Shell) (x : Node) (i : NodeId) (h : i < sh.heap.length) :
    nodeOf { sh with heap := sh.heap ++ [x] } i = nodeOf sh i := by
  unfold nodeOf
  exact List.getD_append _ _ _ _ h

theorem nodeOf_append_len (sh : Shell) (x : Node) :
    nodeOf { sh with heap := sh.heap ++ [x] } sh.heap.length = x := by
  unfold nodeOf
  rw [List.getD_append_right _ _ _ _ (Nat.le_refl _), Nat.sub_self]
  rfl

/-- `childGet` is lookup in `childrenOf`. -/
theorem childGet_as_lookup (nd : Node) (k : String) :
    childGet nd k = lookupKey (childrenOf nd) k := by
  cases h : nd.kind <;> simp [childGet, childrenOf, h, lookupKey]

theorem closedUpTo_mono (n m : Nat) (l : List Node) (h : n ≤ m)
    (hc : closedUpTo n l = true) : closedUpTo m l = true := by
  unfold closedUpTo at *
  rw [List.all_eq_true] at hc ⊢
  intro nd hnd
  have h1 := hc nd hnd
  rw [List.all_eq_true] at h1 ⊢
  intro kv hkv
  have h2 : kv.2 < n := by simpa using h1 kv hkv
  simpa using Nat.lt_of_lt_of_le h2 h

theorem closedUpTo_set (n : Nat) (l : List Node) (i : Nat) (x : Node)
    (hl : closedUpTo n l = true)
    (hx : ((childrenOf x).all fun kv => decide (kv.2 < n)) = true) :
    closedUpTo n (l.set i x) = true := by
  unfold closedUpTo at *
  rw [List.all_eq_true] at hl ⊢
  intro y hy
  rcases List.mem_or_eq_of_mem_set hy with h | h
  · exact hl y h
  · subst h; exact hx

theorem closedUpTo_append (n : Nat) (l : List Node) (x : Node)
    (hl : closedUpTo n l = true)
    (hx : ((childrenOf x).all fun kv => decide (kv.2 < n)) = true) :
    closedUpTo n (l ++ [x]) = true := by
  unfold closedUpTo at *
  rw [List.all_eq_true] at hl ⊢
  intro y hy
  rcases List.mem_append.mp hy with h | h
  · exact hl y h
  · rw [List.mem_singleton.mp h]; exact hx

/-- In a closed heap, the children list of any node is bounded. -/
theorem heapClosed_children (sh : Shell) (hc : heapClosed sh = true) (i : NodeId) :
    ((childrenOf (nodeOf sh i)).all fun kv => decide (kv.2 < sh.heap.length)) = true := by
  by_cases hi : i < sh.heap.length
  · have hmem : nodeOf sh i ∈ sh.heap := by
      unfold nodeOf
      rw [List.getD_eq_getElem _ _ hi]
      exact List.getElem_mem _
    unfold heapClosed closedUpTo at hc
    rw [List.all_eq_true] at hc
    exact hc _ hmem
  · have hd : nodeOf sh i = defaultNode := by
      unfold nodeOf
      exact List.getD_eq_default _ _ (Nat.le_of_not_lt hi)
    rw [hd]
    rfl

/-- In a closed heap, any child id found by `childGet` is allocated. -/
theorem heapClosed_childGet (sh : Shell) (hc : heapClosed sh = true) (i : NodeId)
    (p : String) (c : NodeId) (h : childGet (nodeOf sh i) p = some c) :
    c < sh.heap.length := by
  have hcs := heapClosed_children sh hc i
  rw [List.all_eq_true] at hcs
  rw [childGet_as_lookup] at h
  have h3 := hcs _ (lookupKey_mem _ _ _ h)
  simpa using h3

/-- Closure is preserved by a node update whose new children stay
bounded. -/
theorem heapClosed_updateNode_of (n : Nat) (sh : Shell) (i : NodeId) (f : Node → Node)
    (hc : closedUpTo n sh.heap = true)
    (hf : ((childrenOf (f (nodeOf sh i))).all fun kv => decide (kv.2 < n)) = true) :
    closedUpTo n (updateNode sh i f).heap = true :=
  closedUpTo_set _ _ _ _ hc hf

/-- The facts needed about one directory-creation step of `_ensure_dir`:
allocating a fresh empty directory and attaching it under an existing
node grows the heap by one, keeps it closed, and the new node is an empty
directory parented at the attach point. -/
theorem ensure_step_facts (sh : Shell) (i : NodeId) (p : String)
    (hc : heapClosed sh = true) (hi : i < sh.heap.length) :
    heapClosed (addChild { sh with heap := sh.heap ++
        [{ name := p, perms := 493, parent := none, kind := NodeKind.dir [] }] }
        i sh.heap.length) = true ∧
    (addChild { sh with heap := sh.heap ++
        [{ name := p, perms := 493, parent := none, kind := NodeKind.dir [] }] }
        i sh.heap.length).heap.length = sh.heap.length + 1 ∧
    nodeOf (addChild { sh with heap := sh.heap ++
        [{ name := p, perms := 493, parent := none, kind := NodeKind.dir [] }] }
        i sh.heap.length) sh.heap.length =
      { name := p, perms := 493, parent := some i, kind := NodeKind.dir [] } := by
  have hilen : i ≠ sh.heap.length := Nat.ne_of_lt hi
  have hlenA : ({ sh with heap := sh.heap ++
      [{ name := p, perms := 493, parent := none, kind := NodeKind.dir [] }] } :
        Shell).heap.length = sh.heap.length + 1 := by
    simp
  have hndA := nodeOf_append_len sh
    { name := p, perms := 493, parent := none, kind := NodeKind.dir [] }
  have hlen2 : (addChild { sh with heap := sh.heap ++
      [{ name := p, perms := 493, parent := none, kind := NodeKind.dir [] }] }
      i sh.heap.length).heap.length = sh.heap.length + 1 := by
    rw [addChild_heap_length, hlenA]
  refine ⟨?_, hlen2, ?_⟩
  · have hcA : closedUpTo (sh.heap.length + 1) ({ sh with heap := sh.heap ++
        [{ name := p, perms := 493, parent := none, kind := NodeKind.dir [] }] } :
          Shell).heap = true := by
      refine closedUpTo_append _ _ _ ?_ (by simp [childrenOf])
      exact closedUpTo_mono _ _ _ (Nat.le_succ _) hc
    unfold heapClosed
    rw [hlen2]
    refine heapClosed_updateNode_of _ _ _ _ (heapClosed_updateNode_of _ _ _ _ hcA ?_) ?_
    · rw [nodeOf_append_lt sh _ i hi]
      cases hk : (nodeOf sh i).kind with
      | dir cs =>
        simp only [insertChildK, hk, childrenOf]
        refine dictSet_all _ _ _ _ ?_ (by simp)
        have hcs := heapClosed_children sh hc i
        rw [childrenOf, hk] at hcs
        rw [List.all_eq_true] at hcs ⊢
        intro kv hkv
        have h4 : kv.2 < sh.heap.length := by simpa using hcs kv hkv
        simpa using Nat.lt_of_lt_of_le h4 (Nat.le_succ _)
      | file cont bb =>
        simp [insertChildK, hk, childrenOf]
    · rw [nodeOf_update_ne _ _ _ _ (fun e => hilen e.symm)]
      rw [hndA]
      simp [childrenOf]
  · have hlt : sh.heap.length < ({ sh with heap := sh.heap ++
        [{ name := p, perms := 493, parent := none, kind := NodeKind.dir [] }] } :
          Shell).heap.length := by
      rw [hlenA]; omega
    rw [nodeOf_addChild_child_ne _ i sh.heap.length hilen hlt]
    rw [hndA]

/-- The `_ensure_dir` walk: starting inside a closed heap at an allocated
directory, a successful walk keeps the heap closed, only grows it, and
returns an allocated directory node. -/
theorem ensureDirAux_spec (ps : List String) :
    ∀ (sh : Shell) (i : NodeId) (sh1 : Shell) (d : NodeId),
      heapClosed sh = true → i < sh.heap.length →
      (∃ cs, (nodeOf sh i).kind = NodeKind.dir cs) →
      ensureDirAux sh i ps = some (sh1, d) →
      heapClosed sh1 = true ∧ d < sh1.heap.length ∧ sh.heap.length ≤ sh1.heap.length ∧
        (∃ cs', (nodeOf sh1 d).kind = NodeKind.dir cs') := by
  induction ps with
  | nil =>
    intro sh i sh1 d hc hi hdir h
    unfold ensureDirAux at h
    simp only [Option.some.injEq, Prod.mk.injEq] at h
    obtain ⟨rfl, rfl⟩ := h
    exact ⟨hc, hi, Nat.le_refl _, hdir⟩
  | cons p ps ih =>
    intro sh i sh1 d hc hi hdir h
    unfold ensureDirAux at h
    cases hcg : childGet (nodeOf sh i) p with
    | none =>
      rw [hcg] at h
      obtain ⟨f3, f1, f2⟩ := ensure_step_facts sh i p hc hi
      have hstart : sh.heap.length < (addChild { sh with heap := sh.heap ++
          [{ name := p, perms := 493, parent := none, kind := NodeKind.dir [] }] }
          i sh.heap.length).heap.length := by
        rw [f1]
        omega
      have hres := ih
        (addChild { sh with heap := sh.heap ++
            [{ name := p, perms := 493, parent := none, kind := NodeKind.dir [] }] }
          i sh.heap.length)
        sh.heap.length sh1 d f3 hstart ⟨[], by rw [f2]⟩ h
      refine ⟨hres.1, hres.2.1, ?_, hres.2.2.2⟩
      have h5 := hres.2.2.1
      rw [f1] at h5
      omega
    | some nxt =>
      rw [hcg] at h
      have h' : (match (nodeOf sh nxt).kind with
          | NodeKind.dir _ => ensureDirAux sh nxt ps
          | _ => none) = some (sh1, d) := h
      have hnxt : nxt < sh.heap.length := heapClosed_childGet sh hc i p nxt hcg
      cases hk : (nodeOf sh nxt).kind with
      | dir cs =>
        rw [hk] at h'
        exact ih sh nxt sh1 d hc hnxt ⟨cs, hk⟩ h'
      | file cont bb =>
        rw [hk] at h'
        simp at h'

/-- Attaching the freshly allocated `File` of `_write_file` under an
allocated directory registers it in that directory's children and gives
it the right name, permissions, parent and payload. -/
theorem attach_file_facts (sh1 : Shell) (dirId : NodeId) (fname : String)
    (data : List Nat) (bin : Bool) (hdlt : dirId < sh1.heap.length)
    (cs : List (String × NodeId))
    (hdir : (nodeOf sh1 dirId).kind = NodeKind.dir cs) :
    childGet (nodeOf (addChild { sh1 with heap := sh1.heap ++
        [{ name := fname, perms := 420, parent := none, kind := NodeKind.file data bin }] }
        dirId sh1.heap.length) dirId) fname = some sh1.heap.length ∧
    nodeOf (addChild { sh1 with heap := sh1.heap ++
        [{ name := fname, perms := 420, parent := none, kind := NodeKind.file data bin }] }
        dirId sh1.heap.length) sh1.heap.length =
      { name := fname, perms := 420, parent := some dirId,
        kind := NodeKind.file data bin } := by
  have hne : dirId ≠ sh1.heap.length := Nat.ne_of_lt hdlt
  have hndA := nodeOf_append_len sh1
    { name := fname, perms := 420, parent := none, kind := NodeKind.file data bin }
  have hlenA : ({ sh1 with heap := sh1.heap ++
      [{ name := fname, perms := 420, parent := none, kind := NodeKind.file data bin }] } :
        Shell).heap.length = sh1.heap.length + 1 := by simp
  constructor
  · have hplt : dirId < ({ sh1 with heap := sh1.heap ++
        [{ name := fname, perms := 420, parent := none, kind := NodeKind.file data bin }] } :
          Shell).heap.length := by
      rw [hlenA]
      exact Nat.lt_succ_of_lt hdlt
    rw [nodeOf_addChild_parent_ne _ dirId sh1.heap.length hne hplt]
    rw [hndA]
    rw [nodeOf_append_lt sh1 _ dirId hdlt]
    simp only [childGet, insertChildK, hdir]
    exact lookupKey_dictSet_self cs fname sh1.heap.length
  · have hclt : sh1.heap.length < ({ sh1 with heap := sh1.heap ++
        [{ name := fname, perms := 420, parent := none, kind := NodeKind.file data bin }] } :
          Shell).heap.length := by
      rw [hlenA]
      exact Nat.lt_succ_self _
    rw [nodeOf_addChild_child_ne _ dirId sh1.heap.length hne hclt]
    rw [hndA]

/-- `_write_file(path, data, is_binary)` on a closed heap with a
directory root: on success, the stored node is a fresh `File` carrying
the leaf name of the stripped path, default file permissions, the given
payload and binary flag, registered as a child of its directory under
that leaf name. -/
theorem write_file_spec (sh : Shell) (p : String) (data : List Nat) (bin : Bool) (sh' : Shell)
    (hc : heapClosed sh = true) (hroot : 0 < sh.heap.length)
    (hrk : ∃ cs0, (nodeOf sh rootId).kind = NodeKind.dir cs0)
    (h : write_file sh p data bin = some sh') :
    ∃ dirId fid,
      childGet (nodeOf sh' dirId) ((rpartitionSlash (pyStripSlash p)).2) = some fid ∧
      nodeOf sh' fid =
        { name := (rpartitionSlash (pyStripSlash p)).2, perms := 420,
          parent := some dirId, kind := NodeKind.file data bin } := by
  simp only [write_file] at h
  by_cases hd : (rpartitionSlash (pyStripSlash p)).1 ≠ ""
  · rw [if_pos hd] at h
    cases he : ensure_dir sh (rpartitionSlash (pyStripSlash p)).1 with
    | none => rw [he] at h; simp at h
    | some pr =>
      obtain ⟨sh1, dirId⟩ := pr
      rw [he] at h
      simp only [Option.some.injEq] at h
      subst h
      have hspec := ensureDirAux_spec (segsOf (rpartitionSlash (pyStripSlash p)).1)
        sh rootId sh1 dirId hc hroot hrk he
      obtain ⟨cs, hcs⟩ := hspec.2.2.2
      have hf := attach_file_facts sh1 dirId (rpartitionSlash (pyStripSlash p)).2
        data bin hspec.2.1 cs hcs
      exact ⟨dirId, sh1.heap.length, hf.1, hf.2⟩
  · rw [if_neg hd] at h
    simp only [Option.some.injEq] at h
    subst h
    obtain ⟨cs, hcs⟩ := hrk
    have hf := attach_file_facts sh rootId (rpartitionSlash (pyStripSlash p)).2
      data bin hroot cs hcs
    exact ⟨rootId, sh.heap.length, hf.1, hf.2⟩

/-- C6: during archive ingestion a file entry whose path ends in `.b64`
has its payload base64-decoded — a decode failure is the fatal load error
— and is stored as a binary `File` with the `.b64` suffix stripped from
its name; every other file entry is stored raw and non-binary; and
concretely, ingesting `notes.txt.b64` with payload `"aGk="` (the base64
encoding of `"hi"`) into the empty state yields a `File` named
`notes.txt` with `is_binary = true` and content `[104, 105]` — the bytes
`h`, `i`. -/
theorem load_b64_semantics :
    (∀ (sh : Shell) (e : ZEntry),
      e.isDir = false → heapClosed sh = true → 0 < sh.heap.length →
      (∃ cs0, (nodeOf sh rootId).kind = NodeKind.dir cs0) →
      (endsB64 e.filename = true →
        (b64decode e.data = none → loadEntry sh e = none) ∧
        (∀ d sh', b64decode e.data = some d → loadEntry sh e = some sh' →
          ∃ dirId fid,
            childGet (nodeOf sh' dirId)
              ((rpartitionSlash (pyStripSlash (dropRightN e.filename 4))).2) = some fid ∧
            nodeOf sh' fid =
              { name := (rpartitionSlash (pyStripSlash (dropRightN e.filename 4))).2,
                perms := 420, parent := some dirId, kind := NodeKind.file d true })) ∧
      (endsB64 e.filename = false →
        ∀ sh', loadEntry sh e = some sh' →
          ∃ dirId fid,
            childGet (nodeOf sh' dirId) ((rpartitionSlash (pyStripSlash e.filename)).2) =
              some fid ∧
            nodeOf sh' fid =
              { name := (rpartitionSlash (pyStripSlash e.filename)).2, perms := 420,
                parent := some dirId, kind := NodeKind.file e.data false })) ∧
    ((load_vfs
        [{ filename := "notes.txt.b64", isDir := false,
           data := "aGk=".toList.map Char.toNat }] initShell).map
        (fun s => (resolve s "/notes.txt", nodeOf s 1)) =
      some (some 1,
        { name := "notes.txt", perms := 420, parent := some rootId,
          kind := NodeKind.file [104, 105] true })) := by
  constructor
  · intro sh e hnd hc h0 hrk
    constructor
    · intro hb
      constructor
      · intro hdec
        simp [loadEntry, hnd, hb, hdec]
      · intro d sh' hdec hle
        simp only [loadEntry, hnd, hb, hdec, Bool.false_eq_true, if_false, if_true] at hle
        exact write_file_spec sh (dropRightN e.filename 4) d true sh' hc h0 hrk hle
    · intro hb sh' hle
      simp only [loadEntry, hnd, hb, Bool.false_eq_true, if_false] at hle
      exact write_file_spec sh e.filename e.data false sh' hc h0 hrk hle
  · decide

/-- Witness for C6's general part: a raw (non-`.b64`) entry stored into
the startup state lands as a non-binary file under its leaf name. -/
theorem load_b64_semantics_witness :
    endsB64 "readme.txt" = false ∧
      (∃ dirId fid,
        childGet (nodeOf ((loadEntry initShell
            { filename := "readme.txt", isDir := false, data := [104] }).getD initShell) dirId)
          ((rpartitionSlash (pyStripSlash "readme.txt")).2) = some fid ∧
        nodeOf ((loadEntry initShell
            { filename := "readme.txt", isDir := false, data := [104] }).getD initShell) fid =
          { name := (rpartitionSlash (pyStripSlash "readme.txt")).2, perms := 420,
            parent := some dirId, kind := NodeKind.file [104] false }) :=
  ⟨by decide,
    (load_b64_semantics.1 initShell
        { filename := "readme.txt", isDir := false, data := [104] }
        rfl (by decide) (by decide) ⟨[], rfl⟩).2 rfl
      ((loadEntry initShell
          { filename := "readme.txt", isDir := false, data := [104] }).getD initShell)
      (by decide)⟩

/-! ### Name-legality lemmas -/

/-- Every segment produced by splitting on `/` is non-empty and
slash-free. -/
theorem segsAux_legal (l : List Char) :
    ∀ (cur : List Char), (∀ c ∈ cur, c ≠ '/') →
      ∀ s ∈ segsAux l cur, legalKey s = true := by
  induction l with
  | nil =>
    intro cur hcur s hs
    cases cur with
    | nil => simp [segsAux] at hs
    | cons c0 cr =>
      simp only [segsAux, List.mem_singleton] at hs
      subst hs
      simp only [legalKey, Bool.and_eq_true]
      constructor
      · show (!((c0 :: cr).reverse.isEmpty)) = true
        simp
      · show ((c0 :: cr).reverse.all fun c => c != '/') = true
        rw [List.all_eq_true]
        intro c hcm
        simpa using hcur c (List.mem_reverse.mp hcm)
  | cons c cs ih =>
    intro cur hcur s hs
    simp only [segsAux] at hs
    by_cases hsl : c = '/'
    · rw [if_pos hsl] at hs
      cases cur with
      | nil => exact ih [] (by simp) s hs
      | cons c0 cr =>
        simp only [List.mem_cons] at hs
        rcases hs with hs | hs
        · subst hs
          simp only [legalKey, Bool.and_eq_true]
          constructor
          · show (!((c0 :: cr).reverse.isEmpty)) = true
            simp
          · show ((c0 :: cr).reverse.all fun ch => ch != '/') = true
            rw [List.all_eq_true]
            intro ch hcm
            simpa using hcur ch (List.mem_reverse.mp hcm)
        · exact ih [] (by simp) s hs
    · rw [if_neg hsl] at hs
      refine ih (c :: cur) ?_ s hs
      intro ch hch
      rcases List.mem_cons.mp hch with h | h
      · rw [h]; exact hsl
      · exact hcur ch h

/-- Every segment of a split path is a legal child name. -/
theorem segsOf_legal (p : String) (s : String) (hs : s ∈ segsOf p) :
    legalKey s = true :=
  segsAux_legal p.toList [] (by simp) s hs

theorem getLast?_mem (l : List String) (x : String) (h : l.getLast? = some x) : x ∈ l := by
  obtain ⟨hne, heq⟩ := List.mem_getLast?_eq_getLast (l := l) (x := x)
    (by simp [Option.mem_def, h])
  rw [heq]
  exact List.getLast_mem hne

/-- Legality of any dereferenced node of a legal heap (out-of-range ids
give the legal default node). -/
theorem LegalNames_node (sh : Shell) (hl : LegalNames sh = true) (i : NodeId) :
    nodePredL (nodeOf sh i) = true := by
  by_cases hi : i < sh.heap.length
  · have hmem : nodeOf sh i ∈ sh.heap := by
      unfold nodeOf
      rw [List.getD_eq_getElem _ _ hi]
      exact List.getElem_mem _
    unfold LegalNames at hl
    rw [List.all_eq_true] at hl
    exact hl _ hmem
  · have hd : nodeOf sh i = defaultNode := by
      unfold nodeOf
      exact List.getD_eq_default _ _ (Nat.le_of_not_lt hi)
    rw [hd]
    rfl

/-- Setting a legal node into a legal heap keeps the heap legal. -/
theorem LegalNames_set (sh : Shell) (i : NodeId) (x : Node)
    (hl : LegalNames sh = true) (hx : nodePredL x = true) :
    LegalNames { sh with heap := sh.heap.set i x } = true := by
  unfold LegalNames at *
  rw [List.all_eq_true] at hl ⊢
  intro y hy
  rcases List.mem_or_eq_of_mem_set hy with h | h
  · exact hl y h
  · subst h; exact hx

theorem LegalNames_updateNode (sh : Shell) (i : NodeId) (f : Node → Node)
    (hl : LegalNames sh = true) (hx : nodePredL (f (nodeOf sh i)) = true) :
    LegalNames (updateNode sh i f) = true :=
  LegalNames_set sh i _ hl hx

theorem nodePredL_erase (nd : Node) (k : String) (h : nodePredL nd = true) :
    nodePredL { nd with kind := eraseChildK nd.kind k } = true := by
  unfold nodePredL at *
  simp only [Bool.and_eq_true] at h ⊢
  refine ⟨?_, h.2⟩
  cases hk : nd.kind with
  | dir cs =>
    simp only [childrenOf, eraseChildK, hk]
    refine dictDel_all _ _ _ ?_
    have h1 := h.1
    rw [childrenOf, hk] at h1
    exact h1
  | file cont bb =>
    simp [childrenOf, eraseChildK, hk]

theorem nodePredL_rename (nd : Node) (nm : String) (h : nodePredL nd = true)
    (hnm : legalKey nm = true) :
    nodePredL { nd with name := nm } = true := by
  unfold nodePredL at *
  simp only [Bool.and_eq_true] at h ⊢
  exact ⟨h.1, by simp [hnm]⟩

theorem nodePredL_insert (nd : Node) (k : String) (v : NodeId) (h : nodePredL nd = true)
    (hk : legalKey k = true) :
    nodePredL { nd with kind := insertChildK nd.kind k v } = true := by
  unfold nodePredL at *
  simp only [Bool.and_eq_true] at h ⊢
  refine ⟨?_, h.2⟩
  cases hnk : nd.kind with
  | dir cs =>
    simp only [childrenOf, insertChildK, hnk]
    refine dictSet_all _ _ _ _ ?_ hk
    have h1 := h.1
    rw [childrenOf, hnk] at h1
    exact h1
  | file cont bb =>
    simp [childrenOf, insertChildK, hnk]

theorem nodePredL_parent (nd : Node) (p : NodeId) (h : nodePredL nd = true)
    (hnm : legalKey nd.name = true) :
    nodePredL { nd with parent := some p } = true := by
  unfold nodePredL at *
  simp only [Bool.and_eq_true] at h ⊢
  exact ⟨h.1, by simp [hnm]⟩

/-- `Dir.add` preserves name legality when the attached node's name is
legal. -/
theorem addChild_legal (sh : Shell) (p c : NodeId) (hl : LegalNames sh = true)
    (hnm : legalKey (nodeOf sh c).name = true) :
    LegalNames (addChild sh p c) = true := by
  unfold addChild
  have hl3 : LegalNames (updateNode sh p
      (fun nd => { nd with kind := insertChildK nd.kind (nodeOf sh c).name c })) = true :=
    LegalNames_updateNode _ _ _ hl (nodePredL_insert _ _ _ (LegalNames_node _ hl p) hnm)
  refine LegalNames_updateNode _ _ _ hl3 ?_
  refine nodePredL_parent _ _ (LegalNames_node _ hl3 c) ?_
  by_cases hpc : p = c
  · subst hpc
    by_cases hplt : p < sh.heap.length
    · rw [nodeOf_update_self _ _ _ hplt]
      simpa using hnm
    · rw [nodeOf_update_oob _ _ _ (Nat.le_of_not_lt hplt)]
      exact hnm
  · rw [nodeOf_update_ne _ _ _ _ (fun e => hpc e.symm)]
    exact hnm

/-- The `mv` mutation preserves name legality when the final name is
legal. -/
theorem mvApply_legal (sh : Shell) (srcId srcParent newParent : NodeId) (nm : String)
    (hl : LegalNames sh = true) (hnm : legalKey nm = true)
    (hsrc : srcId < sh.heap.length) :
    LegalNames (mvApply sh srcId srcParent newParent nm) = true := by
  unfold mvApply
  have hl1 : LegalNames (updateNode sh srcParent
      (fun nd => { nd with kind := eraseChildK nd.kind (nodeOf sh srcId).name })) = true :=
    LegalNames_updateNode _ _ _ hl (nodePredL_erase _ _ (LegalNames_node sh hl srcParent))
  have hl2 : LegalNames (updateNode (updateNode sh srcParent
      (fun nd => { nd with kind := eraseChildK nd.kind (nodeOf sh srcId).name }))
      srcId (fun nd => { nd with name := nm })) = true :=
    LegalNames_updateNode _ _ _ hl1 (nodePredL_rename _ _ (LegalNames_node _ hl1 srcId) hnm)
  have hname2 : (nodeOf (updateNode (updateNode sh srcParent
      (fun nd => { nd with kind := eraseChildK nd.kind (nodeOf sh srcId).name }))
      srcId (fun nd => { nd with name := nm })) srcId).name = nm := by
    rw [nodeOf_update_self _ _ _ (by rw [updateNode_heap_length]; exact hsrc)]
  exact addChild_legal _ newParent srcId hl2 (by rw [hname2]; exact hnm)

theorem LegalNames_heapEq (sh sh' : Shell) (h : sh'.heap = sh.heap) :
    LegalNames sh' = LegalNames sh := by
  unfold LegalNames
  rw [h]

theorem nodePredL_perms (nd : Node) (m : Int) :
    nodePredL { nd with perms := m } = nodePredL nd := rfl

theorem cmd_cd_legal (sh : Shell) (args : List String) (hl : LegalNames sh = true) :
    LegalNames (cmd_cd sh args).sh = true := by
  unfold cmd_cd
  split
  · split
    · exact hl
    · split
      · exact hl
      · exact hl
  · exact hl

theorem cmd_chmod_legal (sh : Shell) (args : List String) (hl : LegalNames sh = true) :
    LegalNames (cmd_chmod sh args).sh = true := by
  unfold cmd_chmod
  split
  · split
    · exact hl
    · split
      · exact hl
      · refine LegalNames_updateNode _ _ _ hl ?_
        rw [nodePredL_perms]
        exact LegalNames_node sh hl _
  · exact hl

theorem cmd_mv_legal (sh : Shell) (args : List String) (hl : LegalNames sh = true) :
    LegalNames (cmd_mv sh args).sh = true := by
  rcases args with _ | ⟨src, _ | ⟨dst, _ | ⟨a, rest⟩⟩⟩
  · exact hl
  · exact hl
  · cases hres : resolve sh src with
    | none => simp only [cmd_mv, hres]; exact hl
    | some srcId =>
      cases hpar : (nodeOf sh srcId).parent with
      | none => simp only [cmd_mv, hres, hpar]; exact hl
      | some srcParent =>
        have hsrc : srcId < sh.heap.length := by
          by_contra hge
          have hd : nodeOf sh srcId = defaultNode := by
            unfold nodeOf
            exact List.getD_eq_default _ _ (Nat.le_of_not_lt hge)
          rw [hd] at hpar
          simp [defaultNode] at hpar
        have hsrcnm : legalKey (nodeOf sh srcId).name = true := by
          have hpl := LegalNames_node sh hl srcId
          unfold nodePredL at hpl
          simp only [Bool.and_eq_true, Bool.or_eq_true] at hpl
          rcases hpl.2 with h1 | h1
          · rw [hpar] at h1; simp at h1
          · exact h1
        cases hlast : (segsOf (if endsSlash dst then dropRightN dst 1 else dst)).getLast? with
        | none => simp only [cmd_mv, hres, hpar, hlast]; exact hl
        | some newName =>
          have hnew : legalKey newName = true :=
            segsOf_legal _ _ (getLast?_mem _ _ hlast)
          cases hwalk : mvWalk sh
              (segsOf (if endsSlash dst then dropRightN dst 1 else dst)).dropLast
              (if startsSlash (if endsSlash dst then dropRightN dst 1 else dst) then rootId
                else sh.cwd)
              (segsOf (if endsSlash dst then dropRightN dst 1 else dst)).dropLast with
          | error msg => simp only [cmd_mv, hres, hpar, hlast, hwalk]; exact hl
          | ok destDir =>
            cases hex : childGet (nodeOf sh destDir) newName with
            | none =>
              simp only [cmd_mv, hres, hpar, hlast, hwalk, hex]
              exact mvApply_legal sh srcId srcParent destDir newName hl hnew hsrc
            | some ex =>
              cases hkex : (nodeOf sh ex).kind with
              | dir cs =>
                simp only [cmd_mv, hres, hpar, hlast, hwalk, hex, hkex]
                exact mvApply_legal sh srcId srcParent ex (nodeOf sh srcId).name hl hsrcnm hsrc
              | file cont bb =>
                simp only [cmd_mv, hres, hpar, hlast, hwalk, hex, hkex]
                exact mvApply_legal sh srcId srcParent destDir newName hl hnew hsrc
  · exact hl

/-- Any handler found in the command table preserves name legality. -/
theorem handler_legal (c : String) (h : Shell → List String → HRes)
    (hh : findHandler c = some h) (sh : Shell) (args : List String)
    (hl : LegalNames sh = true) : LegalNames (h sh args).sh = true := by
  unfold findHandler at hh
  split_ifs at hh <;>
    first
      | exact Option.noConfusion hh
      | (injection hh with hh
         subst hh
         first
           | (rw [cmd_ls_state]; exact hl)
           | exact cmd_cd_legal sh args hl
           | (rw [cmd_pwd_state]; exact hl)
           | (rw [cmd_history_state]; exact hl)
           | (rw [cmd_tree_state]; exact hl)
           | exact cmd_chmod_legal sh args hl
           | exact cmd_mv_legal sh args hl
           | (rw [cmd_conf_dump_state]; exact hl))

/-- Counterexample to C3 as stated: starting from the tree ingested from
the single-entry catalog `a/x`, the command `mv /a/x .` inserts the
literal name `.` into the root directory's children map (mapping to the
moved file, node 2), although the claim says `.` is never stored. -/
theorem mv_dot_counterexample :
    ((load_vfs [{ filename := "a/x", isDir := false, data := [104, 105] }] initShell).map
      (fun s => lookupKey (childrenOf (nodeOf (run_line s "mv /a/x ." false).sh rootId)) ".")) =
      some (some 2) := by
  decide

/-- C3 (amended): command execution never inserts an empty or
slash-containing name — every children key and every parented node's name
stays non-empty and slash-free across any `run_line` call (and hence any
sequence of them) — but `mv` can insert the literal names `.` and `..`
when the destination's final segment is `.` or `..` and no directory
child of that name exists. -/
theorem run_line_legal_names (sh : Shell) (line : String) (echo : Bool)
    (hl : LegalNames sh = true) : LegalNames (run_line sh line echo).sh = true := by
  have hl' : LegalNames { sh with history := sh.history ++ [rstripNL line] } = true := by
    rw [LegalNames_heapEq sh { sh with history := sh.history ++ [rstripNL line] } rfl]
    exact hl
  by_cases hb : pyBlank (rstripNL line) = true
  · have he : run_line sh line echo = ⟨false, 0, sh, [], []⟩ := by simp [run_line, hb]
    rw [he]
    exact hl
  · rw [Bool.not_eq_true] at hb
    cases ht : shlexSplit (rstripNL line) with
    | error msg =>
      have he : run_line sh line echo = ⟨false, 1, sh, [], ["parse error: " ++ msg]⟩ := by
        simp [run_line, hb, ht]
      rw [he]
      exact hl
    | ok parts =>
      cases parts with
      | nil =>
        have he : (run_line sh line echo).sh =
            { sh with history := sh.history ++ [rstripNL line] } := by
          simp [run_line, hb, ht]
        rw [he]
        exact hl'
      | cons cmd args =>
        by_cases hx : cmd = "exit"
        · have he : (run_line sh line echo).sh =
              { sh with history := sh.history ++ [rstripNL line] } := by
            simp [run_line, hb, ht, hx]
          rw [he]
          exact hl'
        · cases hh : findHandler cmd with
          | none =>
            have he : (run_line sh line echo).sh =
                { sh with history := sh.history ++ [rstripNL line] } := by
              simp [run_line, hb, ht, hx, hh]
            rw [he]
            exact hl'
          | some h =>
            have he : (run_line sh line echo).sh =
                (h { sh with history := sh.history ++ [rstripNL line] } args).sh := by
              simp [run_line, hb, ht, hx, hh]
            rw [he]
            exact handler_legal cmd h hh _ args hl'

/-- Witness for C3's amended statement: a legal demo state stays legal
across a successful `mv`. -/
theorem run_line_legal_names_witness :
    LegalNames mvDemo = true ∧
      LegalNames (run_line mvDemo "mv /a/x /b" false).sh = true :=
  ⟨by decide, run_line_legal_names mvDemo "mv /a/x /b" false (by decide)⟩

/-! ### The `mv` mutation specification -/

theorem childGet_parentSet (nd : Node) (q : Option NodeId) (k : String) :
    childGet { nd with parent := q } k = childGet nd k := rfl

theorem childGet_nameSet (nd : Node) (nm k : String) :
    childGet { nd with name := nm } k = childGet nd k := rfl

theorem nodeOf_addChild_self (sh : Shell) (p : NodeId) (hp : p < sh.heap.length) :
    nodeOf (addChild sh p p) p =
      { nodeOf sh p with
          kind := insertChildK (nodeOf sh p).kind (nodeOf sh p).name p,
          parent := some p } := by
  unfold addChild
  rw [nodeOf_update_self _ _ _ (by rw [updateNode_heap_length]; exact hp)]
  rw [nodeOf_update_self _ _ _ hp]

/-- Looking up a key other than the one `insertChildK` inserts is
unchanged. -/
theorem childGet_insertK (nd : Node) (key : String) (v : NodeId) (k : String)
    (hk : k ≠ key) :
    childGet { nd with kind := insertChildK nd.kind key v } k = childGet nd k := by
  cases h : nd.kind with
  | dir cs =>
    simp only [childGet, insertChildK, h]
    exact lookupKey_dictSet_ne cs key k v hk
  | file cont bb =>
    simp [childGet, insertChildK, h]

/-- `Dir.add` does not change any lookup other than the inserted key of
the attach point. -/
theorem childGet_addChild_gen (sh : Shell) (p c j : NodeId) (k : String)
    (hc : c < sh.heap.length) (hp : p < sh.heap.length)
    (hk : j ≠ p ∨ k ≠ (nodeOf sh c).name) :
    childGet (nodeOf (addChild sh p c) j) k = childGet (nodeOf sh j) k := by
  by_cases hjp : j = p
  · subst hjp
    have hkn : k ≠ (nodeOf sh c).name := by
      rcases hk with h | h
      · exact absurd rfl h
      · exact h
    by_cases hjc : j = c
    · subst hjc
      rw [nodeOf_addChild_self sh j hp]
      exact childGet_insertK _ _ _ _ hkn
    · rw [nodeOf_addChild_parent_ne sh j c hjc hp]
      exact childGet_insertK _ _ _ _ hkn
  · by_cases hjc : j = c
    · subst hjc
      rw [nodeOf_addChild_child_ne sh p j (fun e => hjp e.symm) hc]
      exact childGet_parentSet _ _ _
    · rw [nodeOf_addChild_other sh p c j hjp hjc]

/-- The full effect of the `mv` mutation phase: the source node ends up
as a child of `newParent` under the final name, renamed and re-parented,
and its old entry is removed from its old parent (unless the attach
re-creates it in the same place). -/
theorem mvApply_spec (sh : Shell) (srcId srcParent newParent : NodeId) (nm : String)
    (hsrc : srcId < sh.heap.length) (hsp : srcParent < sh.heap.length)
    (hnp : newParent < sh.heap.length) (csn : List (String × NodeId))
    (hnpk : (nodeOf sh newParent).kind = NodeKind.dir csn) :
    MvMoved (mvApply sh srcId srcParent newParent nm) srcId newParent nm
      srcParent ((nodeOf sh srcId).name) := by
  have heq : mvApply sh srcId srcParent newParent nm =
      addChild (updateNode (updateNode sh srcParent
        (fun nd => { nd with kind := eraseChildK nd.kind (nodeOf sh srcId).name }))
        srcId (fun nd => { nd with name := nm })) newParent srcId := rfl
  rw [heq]
  have hlen1 : (updateNode sh srcParent
      (fun nd => { nd with kind := eraseChildK nd.kind (nodeOf sh srcId).name })).heap.length
      = sh.heap.length := updateNode_heap_length ..
  have hlen2 : (updateNode (updateNode sh srcParent
      (fun nd => { nd with kind := eraseChildK nd.kind (nodeOf sh srcId).name }))
      srcId (fun nd => { nd with name := nm })).heap.length = sh.heap.length := by
    rw [updateNode_heap_length, hlen1]
  have hname2 : (nodeOf (updateNode (updateNode sh srcParent
      (fun nd => { nd with kind := eraseChildK nd.kind (nodeOf sh srcId).name }))
      srcId (fun nd => { nd with name := nm })) srcId).name = nm := by
    rw [nodeOf_update_self _ _ _ (by rw [hlen1]; exact hsrc)]
  have hkind2 : ∃ cs2, (nodeOf (updateNode (updateNode sh srcParent
      (fun nd => { nd with kind := eraseChildK nd.kind (nodeOf sh srcId).name }))
      srcId (fun nd => { nd with name := nm })) newParent).kind = NodeKind.dir cs2 := by
    have hk1 : ∃ cs1, (nodeOf (updateNode sh srcParent
        (fun nd => { nd with kind := eraseChildK nd.kind (nodeOf sh srcId).name }))
        newParent).kind = NodeKind.dir cs1 := by
      by_cases hps : newParent = srcParent
      · subst hps
        rw [nodeOf_update_self _ _ _ hnp]
        refine ⟨dictDel csn (nodeOf sh srcId).name, ?_⟩
        show eraseChildK (nodeOf sh newParent).kind (nodeOf sh srcId).name = _
        rw [hnpk]
        rfl
      · rw [nodeOf_update_ne _ _ _ _ hps]
        exact ⟨csn, hnpk⟩
    obtain ⟨cs1, hk1⟩ := hk1
    by_cases hss : newParent = srcId
    · subst hss
      rw [nodeOf_update_self _ _ _ (by rw [hlen1]; exact hsrc)]
      exact ⟨cs1, hk1⟩
    · rw [nodeOf_update_ne _ _ _ _ hss]
      exact ⟨cs1, hk1⟩
  obtain ⟨cs2, hkind2⟩ := hkind2
  unfold MvMoved
  refine ⟨?_, ?_, ?_, ?_⟩
  · by_cases hns : newParent = srcId
    · subst hns
      rw [nodeOf_addChild_self _ _ (by rw [hlen2]; exact hnp)]
      simp only [childGet, insertChildK, hname2, hkind2]
      exact lookupKey_dictSet_self cs2 nm newParent
    · rw [nodeOf_addChild_parent_ne _ newParent srcId hns (by rw [hlen2]; exact hnp)]
      rw [hname2]
      simp only [childGet, insertChildK, hkind2]
      exact lookupKey_dictSet_self cs2 nm srcId
  · by_cases hns : newParent = srcId
    · subst hns
      rw [nodeOf_addChild_self _ _ (by rw [hlen2]; exact hnp)]
      exact hname2
    · rw [nodeOf_addChild_child_ne _ newParent srcId hns (by rw [hlen2]; exact hsrc)]
      exact hname2
  · by_cases hns : newParent = srcId
    · subst hns
      rw [nodeOf_addChild_self _ _ (by rw [hlen2]; exact hnp)]
    · rw [nodeOf_addChild_child_ne _ newParent srcId hns (by rw [hlen2]; exact hsrc)]
  · intro hcond
    rw [childGet_addChild_gen _ newParent srcId srcParent _
      (by rw [hlen2]; exact hsrc) (by rw [hlen2]; exact hnp) ?side]
    case side =>
      rcases hcond with h | h
      · exact Or.inl h
      · right
        rw [hname2]
        exact h
    have hstep2 : childGet (nodeOf (updateNode (updateNode sh srcParent
        (fun nd => { nd with kind := eraseChildK nd.kind (nodeOf sh srcId).name }))
        srcId (fun nd => { nd with name := nm })) srcParent) ((nodeOf sh srcId).name)
        = childGet (nodeOf (updateNode sh srcParent
          (fun nd => { nd with kind := eraseChildK nd.kind (nodeOf sh srcId).name }))
          srcParent) ((nodeOf sh srcId).name) := by
      by_cases hps : srcParent = srcId
      · subst hps
        rw [nodeOf_update_self _ _ _ (by rw [hlen1]; exact hsp)]
        exact childGet_nameSet _ _ _
      · rw [nodeOf_update_ne _ _ _ _ hps]
    rw [hstep2]
    rw [nodeOf_update_self _ _ _ hsp]
    cases hk : (nodeOf sh srcParent).kind with
    | dir cs =>
      simp only [childGet, eraseChildK, hk]
      exact lookupKey_dictDel_self cs ((nodeOf sh srcId).name)
    | file cont bb =>
      simp [childGet, eraseChildK, hk]

/-- What `wfChildren` gives for one successful lookup. -/
theorem wfChildren_childGet (sh : Shell) (hw : wfChildren sh = true) (i : NodeId)
    (p : String) (c : NodeId) (h : childGet (nodeOf sh i) p = some c) :
    c < sh.heap.length ∧ (nodeOf sh c).name = p ∧ (nodeOf sh c).parent = some i := by
  by_cases hi : i < sh.heap.length
  · unfold wfChildren at hw
    rw [List.all_eq_true] at hw
    have h1 := hw i (List.mem_range.mpr hi)
    rw [List.all_eq_true] at h1
    rw [childGet_as_lookup] at h
    have h2 := h1 _ (lookupKey_mem _ _ _ h)
    simp only [Bool.and_eq_true, decide_eq_true_eq, beq_iff_eq] at h2
    exact ⟨h2.1.1, h2.1.2, h2.2⟩
  · have hd : nodeOf sh i = defaultNode := by
      unfold nodeOf
      exact List.getD_eq_default _ _ (Nat.le_of_not_lt hi)
    rw [hd] at h
    simp [childGet, defaultNode, lookupKey] at h

/-- What `wfParent` gives for one node with a parent. -/
theorem wfParent_spec (sh : Shell) (hw : wfParent sh = true) (i : NodeId)
    (hi : i < sh.heap.length) (pp : NodeId) (hp : (nodeOf sh i).parent = some pp) :
    pp < sh.heap.length ∧ (nodeOf sh i).name ≠ "" ∧
      childGet (nodeOf sh pp) ((nodeOf sh i).name) = some i := by
  unfold wfParent at hw
  rw [List.all_eq_true] at hw
  have h1 := hw i (List.mem_range.mpr hi)
  rw [hp] at h1
  simp only [Bool.and_eq_true, decide_eq_true_eq, bne_iff_ne, beq_iff_eq] at h1
  exact ⟨h1.1.1, h1.1.2, h1.2⟩

/-- C1: for `mv SRC DST` with `SRC` resolving to a non-root node and all
destination directory components existing directories, `mv` returns 0
and moves the node as claimed — into an existing directory child of the
destination directory under its original leaf name (directory-target
merge), or otherwise renamed to the final segment directly into the
destination directory, silently replacing an existing `File` of that
name; and concretely, after `mv /a/x /b` on the demo state, `/a/x` no
longer resolves while `/b/x` resolves to the same file node with content
and permissions unchanged. -/
theorem mv_semantics :
    (∀ (sh : Shell) (src dst : String) (srcId srcParent destDir : NodeId)
        (csd : List (String × NodeId)) (newName : String),
      wfChildren sh = true → wfParent sh = true →
      resolve sh src = some srcId →
      (nodeOf sh srcId).parent = some srcParent →
      (segsOf (if endsSlash dst then dropRightN dst 1 else dst)).getLast? = some newName →
      mvWalk sh (segsOf (if endsSlash dst then dropRightN dst 1 else dst)).dropLast
        (if startsSlash (if endsSlash dst then dropRightN dst 1 else dst) then rootId
          else sh.cwd)
        (segsOf (if endsSlash dst then dropRightN dst 1 else dst)).dropLast =
        Except.ok destDir →
      (nodeOf sh destDir).kind = NodeKind.dir csd →
      destDir < sh.heap.length →
      (cmd_mv sh [src, dst]).rc = 0 ∧
      (∀ (ex : NodeId) (csx : List (String × NodeId)),
        childGet (nodeOf sh destDir) newName = some ex →
        (nodeOf sh ex).kind = NodeKind.dir csx →
        MvMoved (cmd_mv sh [src, dst]).sh srcId ex ((nodeOf sh srcId).name)
          srcParent ((nodeOf sh srcId).name)) ∧
      (childGet (nodeOf sh destDir) newName = none →
        MvMoved (cmd_mv sh [src, dst]).sh srcId destDir newName
          srcParent ((nodeOf sh srcId).name)) ∧
      (∀ (ex : NodeId) (cont : List Nat) (bb : Bool),
        childGet (nodeOf sh destDir) newName = some ex →
        (nodeOf sh ex).kind = NodeKind.file cont bb →
        MvMoved (cmd_mv sh [src, dst]).sh srcId destDir newName
          srcParent ((nodeOf sh srcId).name))) ∧
    ((cmd_mv mvDemo ["/a/x", "/b"]).rc = 0 ∧
      resolve (cmd_mv mvDemo ["/a/x", "/b"]).sh "/a/x" = none ∧
      resolve (cmd_mv mvDemo ["/a/x", "/b"]).sh "/b/x" = some 2 ∧
      nodeOf (cmd_mv mvDemo ["/a/x", "/b"]).sh 2 =
        { name := "x", perms := 420, parent := some 3,
          kind := NodeKind.file [104, 105] false }) := by
  constructor
  · intro sh src dst srcId srcParent destDir csd newName hwc hwp hres hpar hlast hwalk hkdd hdd
    have hsrclt : srcId < sh.heap.length := by
      by_contra hge
      have hd : nodeOf sh srcId = defaultNode := by
        unfold nodeOf
        exact List.getD_eq_default _ _ (Nat.le_of_not_lt hge)
      rw [hd] at hpar
      simp [defaultNode] at hpar
    have hsp := wfParent_spec sh hwp srcId hsrclt srcParent hpar
    refine ⟨?_, ?_, ?_, ?_⟩
    · cases hex : childGet (nodeOf sh destDir) newName with
      | none => simp only [cmd_mv, hres, hpar, hlast, hwalk, hex]
      | some ex =>
        cases hkex : (nodeOf sh ex).kind with
        | dir cs => simp only [cmd_mv, hres, hpar, hlast, hwalk, hex, hkex]
        | file cont bb => simp only [cmd_mv, hres, hpar, hlast, hwalk, hex, hkex]
    · intro ex csx hex hkex
      have hexlt := (wfChildren_childGet sh hwc destDir newName ex hex).1
      have hred : (cmd_mv sh [src, dst]).sh =
          mvApply sh srcId srcParent ex ((nodeOf sh srcId).name) := by
        simp only [cmd_mv, hres, hpar, hlast, hwalk, hex, hkex]
      rw [hred]
      exact mvApply_spec sh srcId srcParent ex ((nodeOf sh srcId).name)
        hsrclt hsp.1 hexlt csx hkex
    · intro hex
      have hred : (cmd_mv sh [src, dst]).sh =
          mvApply sh srcId srcParent destDir newName := by
        simp only [cmd_mv, hres, hpar, hlast, hwalk, hex]
      rw [hred]
      exact mvApply_spec sh srcId srcParent destDir newName hsrclt hsp.1 hdd csd hkdd
    · intro ex cont bb hex hkex
      have hred : (cmd_mv sh [src, dst]).sh =
          mvApply sh srcId srcParent destDir newName := by
        simp only [cmd_mv, hres, hpar, hlast, hwalk, hex, hkex]
      rw [hred]
      exact mvApply_spec sh srcId srcParent destDir newName hsrclt hsp.1 hdd csd hkdd
  · refine ⟨rfl, by decide, by decide, by decide⟩

/-- Witness for C1's general part: the directory-target merge of
`mv /a/x /b` on the demo state moves node 2 into directory 3 under its
original name. -/
theorem mv_semantics_witness :
    wfChildren mvDemo = true ∧
      MvMoved (cmd_mv mvDemo ["/a/x", "/b"]).sh 2 3 ((nodeOf mvDemo 2).name) 1
        ((nodeOf mvDemo 2).name) :=
  ⟨by decide,
    (mv_semantics.1 mvDemo "/a/x" "/b" 2 1 0 [("a", 1), ("b", 3)] "b"
        (by decide) (by decide) (by decide) (by decide) rfl rfl (by decide)
        (by decide)).2.1 3 [] (by decide) (by decide)⟩

/-! ### Path/round-trip lemmas for claim C2 -/

theorem pathAux_acc (sh : Shell) :
    ∀ (f : Nat) (i : NodeId) (acc : List String),
      pathAux sh f i acc = pathAux sh f i [] ++ acc := by
  intro f
  induction f with
  | zero => intro i acc; rfl
  | succ f ih =>
    intro i acc
    cases hp : (nodeOf sh i).parent with
    | none => simp [pathAux, hp]
    | some q =>
      simp only [pathAux, hp]
      rw [ih q ((nodeOf sh i).name :: acc), ih q [(nodeOf sh i).name]]
      simp

theorem pathAux_fuel (sh : Shell) :
    ∀ (f : Nat) (i : NodeId), rootedWithin sh f i = true →
      ∀ (g : Nat), f ≤ g → ∀ acc, pathAux sh g i acc = pathAux sh f i acc := by
  intro f
  induction f with
  | zero =>
    intro i hr g hg acc
    unfold rootedWithin at hr
    have hp : (nodeOf sh i).parent = none := by
      cases hp : (nodeOf sh i).parent with
      | none => rfl
      | some q => rw [hp] at hr; simp at hr
    cases g with
    | zero => rfl
    | succ g => simp [pathAux, hp]
  | succ f ih =>
    intro i hr g hg acc
    cases hp : (nodeOf sh i).parent with
    | none =>
      cases g with
      | zero => exact absurd hg (by omega)
      | succ g => simp [pathAux, hp]
    | some q =>
      unfold rootedWithin at hr
      rw [hp] at hr
      cases g with
      | zero => exact absurd hg (by omega)
      | succ g =>
        simp only [pathAux, hp]
        exact ih q hr g (Nat.le_of_succ_le_succ hg) _

theorem wfRooted_at (sh : Shell) (hwr : wfRooted sh = true) (i : NodeId)
    (hi : i < sh.heap.length) : rootedWithin sh sh.heap.length i = true := by
  unfold wfRooted at hwr
  rw [List.all_eq_true] at hwr
  exact hwr i (List.mem_range.mpr hi)

theorem pathAux_child_step (sh : Shell) (f : Nat) (i c : NodeId) (k : String)
    (hn : (nodeOf sh c).name = k) (hp : (nodeOf sh c).parent = some i)
    (acc : List String) :
    pathAux sh (f + 1) c acc = pathAux sh f i (k :: acc) := by
  simp [pathAux, hp, hn]

/-- All names on a parent chain are non-empty in a `wfParent` heap. -/
theorem pathAux_names_ne (sh : Shell) (hwp : wfParent sh = true) :
    ∀ (f : Nat) (i : NodeId), i < sh.heap.length →
      ∀ s ∈ pathAux sh f i [], s ≠ "" := by
  intro f
  induction f with
  | zero => intro i hi s hs; simp [pathAux] at hs
  | succ f ih =>
    intro i hi s hs
    cases hp : (nodeOf sh i).parent with
    | none => rw [pathAux, hp] at hs; simp at hs
    | some q =>
      rw [pathAux, hp] at hs
      have hs' : s ∈ pathAux sh f q [(nodeOf sh i).name] := hs
      rw [pathAux_acc] at hs'
      have hs := hs'
      have hspec := wfParent_spec sh hwp i hi q hp
      rcases List.mem_append.mp hs with h | h
      · exact ih q hspec.1 s h
      · rw [List.mem_singleton.mp h]
        exact hspec.2.1

theorem joinSlash_append (a b : List String) (ha : a ≠ []) (hb : b ≠ []) :
    joinSlash (a ++ b) = joinSlash a ++ "/" ++ joinSlash b := by
  induction a with
  | nil => exact absurd rfl ha
  | cons x a' ih =>
    cases ha' : a' with
    | nil =>
      cases b with
      | nil => exact absurd rfl hb
      | cons y ys => rfl
    | cons z a'' =>
      rw [ha'] at ih
      have ih' := ih (by simp)
      show x ++ "/" ++ joinSlash (z :: a'' ++ b) =
        joinSlash (x :: z :: a'') ++ "/" ++ joinSlash b
      rw [ih']
      show _ = (x ++ "/" ++ joinSlash (z :: a'')) ++ "/" ++ joinSlash b
      simp [String.append_assoc]

theorem joinSlash_ne_empty (a : List String) (ha : a ≠ [])
    (hall : ∀ s ∈ a, s ≠ "") : joinSlash a ≠ "" := by
  cases a with
  | nil => exact absurd rfl ha
  | cons x r =>
    cases r with
    | nil => exact hall x (by simp)
    | cons y ys =>
      intro he
      have h2 : x ++ "/" ++ joinSlash (y :: ys) = "" := he
      have hlen := congrArg String.length h2
      rw [String.length_append, String.length_append] at hlen
      have h3 : ("/" : String).length = 1 := rfl
      have h4 : ("" : String).length = 0 := rfl
      rw [h3, h4] at hlen
      omega

theorem segsAux_ne_nil (l : List Char) :
    ∀ (cur : List Char), cur ≠ [] → segsAux l cur ≠ [] := by
  induction l with
  | nil =>
    intro cur hc
    cases cur with
    | nil => exact absurd rfl hc
    | cons c0 cr => simp [segsAux]
  | cons c cs ih =>
    intro cur hc
    simp only [segsAux]
    by_cases hsl : c = '/'
    · rw [if_pos hsl]
      cases cur with
      | nil => exact absurd rfl hc
      | cons c0 cr => simp
    · rw [if_neg hsl]
      exact ih (c :: cur) (by simp)

/-- The walk of claim C2: starting from an allocated node, following
existing child names (no dot segments) succeeds and extends the node's
root-to-node name chain by exactly the walked segments. -/
theorem walk_path (sh : Shell) (hwc : wfChildren sh = true) (hwr : wfRooted sh = true) :
    ∀ (segs : List String) (i : NodeId), i < sh.heap.length →
      (∀ s ∈ segs, s ≠ "." ∧ s ≠ "..") →
      walkOk sh i segs = true →
      ∃ n, resolveAux sh i segs = some n ∧ n < sh.heap.length ∧
        pathAux sh (sh.heap.length + 1) n [] =
          pathAux sh (sh.heap.length + 1) i [] ++ segs := by
  intro segs
  induction segs with
  | nil =>
    intro i hi hdots hw
    exact ⟨i, rfl, hi, by simp⟩
  | cons s ss ih =>
    intro i hi hdots hw
    have hs1 : s ≠ "." := (hdots s (by simp)).1
    have hs2 : s ≠ ".." := (hdots s (by simp)).2
    unfold walkOk at hw
    cases hcg : childGet (nodeOf sh i) s with
    | none => rw [hcg] at hw; simp at hw
    | some c =>
      rw [hcg] at hw
      obtain ⟨hclt, hcname, hcpar⟩ := wfChildren_childGet sh hwc i s c hcg
      obtain ⟨n, hres, hnlt, hpath⟩ := ih c hclt
        (fun t ht => hdots t (by simp [ht])) hw
      refine ⟨n, ?_, hnlt, ?_⟩
      · have hstep : resolveAux sh i (s :: ss) = resolveAux sh c ss := by
          simp [resolveAux, hs1, hs2, hcg]
        rw [hstep, hres]
      · rw [hpath]
        have hc1 : pathAux sh (sh.heap.length + 1) c [] =
            pathAux sh sh.heap.length i [s] :=
          pathAux_child_step sh sh.heap.length i c s hcname hcpar []
        have hc2 : pathAux sh (sh.heap.length + 1) i [s] =
            pathAux sh sh.heap.length i [s] :=
          pathAux_fuel sh sh.heap.length i (wfRooted_at sh hwr i hi)
            (sh.heap.length + 1) (Nat.le_succ _) [s]
        rw [hc1, ← hc2, pathAux_acc sh (sh.heap.length + 1) i [s]]
        simp


theorem segsOf_ne_nil (p : String) (hp : p ≠ "") (hs : startsSlash p = false) :
    segsOf p ≠ [] := by
  cases p with
  | mk l =>
    cases l with
    | nil => exact absurd rfl hp
    | cons c cs =>
      have hc : c ≠ '/' := by
        intro h
        subst h
        simp [startsSlash] at hs
      show segsAux (c :: cs) [] ≠ []
      simp only [segsAux, if_neg hc]
      exact segsAux_ne_nil cs [c] (by simp)

theorem strLength_pos (s : String) (h : s ≠ "") : 0 < s.length := by
  cases s with
  | mk l =>
    cases l with
    | nil => exact absurd rfl h
    | cons c cs =>
      show 0 < (String.mk (c :: cs)).length
      have he : (String.mk (c :: cs)).length = cs.length + 1 := rfl
      rw [he]
      omega

theorem slash_append_ne_slash (j : String) (hj : j ≠ "") : "/" ++ j ≠ "/" := by
  intro he
  have hlen := congrArg String.length he
  rw [String.length_append] at hlen
  have h1 : ("/" : String).length = 1 := rfl
  rw [h1] at hlen
  have h2 := strLength_pos j hj
  omega

/-- C2: for every path string `p`, absolute or relative to the current
directory, all of whose segments are names of existing child nodes along
the walk (no `.` or `..` segments), `resolve p` succeeds, and the
resulting node's `path()` equals the canonical absolute form of `p`:
duplicate slashes collapsed, any trailing slash removed, and a relative
`p` prefixed by the current directory's absolute path — stated over any
well-formed heap (consistent children maps, consistent non-empty-named
parent links, rooted parent chains, parentless root). -/
theorem resolve_path_roundtrip (sh : Shell) (p : String)
    (hwc : wfChildren sh = true) (hwp : wfParent sh = true)
    (hwr : wfRooted sh = true)
    (hroot : (nodeOf sh rootId).parent = none)
    (hlen : 0 < sh.heap.length) (hcwd : sh.cwd < sh.heap.length)
    (hdots : ∀ s ∈ segsOf p, s ≠ "." ∧ s ≠ "..")
    (hwalk : walkOk sh (if startsSlash p then rootId else sh.cwd) (segsOf p) = true) :
    ∃ n, resolve sh p = some n ∧ pathOf sh n = canonicalForm sh p := by
  by_cases hne : p = ""
  · subst hne
    exact ⟨sh.cwd, rfl, rfl⟩
  by_cases hnd : p = "."
  · subst hnd
    have hm : ("." : String) ∈ segsOf "." := by decide
    exact absurd rfl (hdots "." hm).1
  cases hs : startsSlash p with
  | true =>
    rw [hs] at hwalk
    simp only [if_pos] at hwalk
    obtain ⟨n, hres, hnlt, hpath⟩ :=
      walk_path sh hwc hwr (segsOf p) rootId hlen hdots hwalk
    refine ⟨n, ?_, ?_⟩
    · have h1 : resolve sh p = resolveAux sh rootId (segsOf p) := by
        simp [resolve, hne, hnd, hs]
      rw [h1, hres]
    · have hr0 : pathAux sh (sh.heap.length + 1) rootId [] = [] := by
        simp [pathAux, hroot]
      rw [hr0] at hpath
      simp only [List.nil_append] at hpath
      have hcf : canonicalForm sh p = "/" ++ joinSlash (segsOf p) := by
        simp [canonicalForm, hs]
      rw [hcf]
      simp only [pathOf]
      rw [hpath]
  | false =>
    rw [hs] at hwalk
    simp only [Bool.false_eq_true, if_false] at hwalk
    have hnn : segsOf p ≠ [] := segsOf_ne_nil p hne hs
    obtain ⟨s, ss, hseg⟩ := List.exists_cons_of_ne_nil hnn
    obtain ⟨n, hres, hnlt, hpath⟩ :=
      walk_path sh hwc hwr (segsOf p) sh.cwd hcwd hdots hwalk
    refine ⟨n, ?_, ?_⟩
    · have h1 : resolve sh p = resolveAux sh sh.cwd (segsOf p) := by
        simp [resolve, hne, hnd, hs]
      rw [h1, hres]
    · by_cases hce : pathAux sh (sh.heap.length + 1) sh.cwd [] = []
      · have hpc : pathOf sh sh.cwd = "/" := by
          simp only [pathOf]
          rw [hce]
          exact String.append_empty "/"
        have hcf : canonicalForm sh p = "" ++ "/" ++ joinSlash (s :: ss) := by
          simp [canonicalForm, hs, hseg, hpc]
        rw [hcf]
        simp only [pathOf]
        rw [hpath, hce, hseg]
        simp only [List.nil_append]
        rw [String.empty_append]
      · have hnames : ∀ t ∈ pathAux sh (sh.heap.length + 1) sh.cwd [], t ≠ "" :=
          pathAux_names_ne sh hwp (sh.heap.length + 1) sh.cwd hcwd
        have hj : joinSlash (pathAux sh (sh.heap.length + 1) sh.cwd []) ≠ "" :=
          joinSlash_ne_empty _ hce hnames
        have hpc : pathOf sh sh.cwd =
            "/" ++ joinSlash (pathAux sh (sh.heap.length + 1) sh.cwd []) := rfl
        have hne2 : "/" ++ joinSlash (pathAux sh (sh.heap.length + 1) sh.cwd []) ≠ "/" :=
          slash_append_ne_slash _ hj
        have hcf : canonicalForm sh p =
            ("/" ++ joinSlash (pathAux sh (sh.heap.length + 1) sh.cwd [])) ++ "/" ++
              joinSlash (s :: ss) := by
          simp only [canonicalForm, hs, Bool.false_eq_true, if_false, hseg, hpc]
          rw [if_neg hne2]
        rw [hcf]
        simp only [pathOf]
        rw [hpath, hseg,
          joinSlash_append (pathAux sh (sh.heap.length + 1) sh.cwd []) (s :: ss) hce
            (by simp)]
        simp [String.append_assoc]

/-- Concrete instance of `resolve_path_roundtrip` on the demo tree. -/
theorem resolve_path_roundtrip_witness :
    (wfChildren mvDemo = true) ∧
      (∃ n, resolve mvDemo "/a/x" = some n ∧
        pathOf mvDemo n = canonicalForm mvDemo "/a/x") :=
  ⟨by decide,
    resolve_path_roundtrip mvDemo "/a/x" (by decide) (by decide) (by decide)
      (by decide) (by decide) (by decide) (by decide) (by decide)⟩

end ShEmu
